import Mathlib

/-!
Verification of the R-swat release-engineering scripts
(`cicd/get-version.py`, `cicd/get-basename.py`, `cicd/tar2conda.py`)
against their natural-language specification.

Strings are modelled as `List Char` (type `Line`).  Lines of a text file
are modelled without their trailing newline character; Python's
whitespace class (`str.rstrip`, regex `\s`) is modelled by the six ASCII
whitespace characters, and `\d` by the ASCII digits, which is faithful
for the ASCII data these scripts process.
-/

/-- Strings are modelled as lists of characters. -/
abbrev Line := List Char

/-- Character list of a string literal. -/
def chars (s : String) : Line := s.data

/-- ASCII whitespace, modelling Python's `\s` / `str.rstrip` class. -/
def isSpc (c : Char) : Bool :=
  c = ' ' || c = '\t' || c = '\n' || c = '\r' || c = '\x0b' || c = '\x0c'

/-- Python `str.rstrip()`: drop trailing whitespace. -/
def rstrip (l : Line) : Line := (l.reverse.dropWhile isSpc).reverse

/-- Python `str.lower()` (ASCII). -/
def lowerL (l : Line) : Line := l.map Char.toLower

/-- Python's substring test `p in l` (contiguous occurrence). -/
def isSub (p : Line) : Line → Bool
  | [] => p.isEmpty
  | l@(_ :: t) => p.isPrefixOf l || isSub p t

/-!
### Platform detection

`get_platform` appears verbatim (identically) in both
`cicd/get-basename.py` and `cicd/tar2conda.py`.  Its host probes
`platform.system()` and `platform.machine()` are taken as the two
arguments `sysName` and `machine`.
-/

/-- `get_platform` from `cicd/get-basename.py` / `cicd/tar2conda.py`. -/
def get_platform (sysName machine : Line) : Line :=
  let plat := lowerL sysName
  if isSub (chars "darwin") plat then chars "osx-64"
  else if (chars "win").isPrefixOf plat then chars "win-64"
  else if isSub (chars "linux") plat then
    let m := lowerL machine
    if isSub (chars "x86") m then chars "linux-64"
    else if isSub (chars "ppc") m then chars "linux-ppc64le"
    else chars "unknown"
  else chars "unknown"

/-!
### The metadata-line matchers

`get-version.py` and `get-basename.py` scan the DESCRIPTION file with
`re.search(r'^Version\s*:\s*(\S+)', line)` and
`re.search(r'^TKVersion\s*:\s*(\S+)', line)`.  Since the patterns are
anchored at `^` (no MULTILINE flag), a match is a parse of the line's
prefix; the group `(\S+)` is the maximal nonempty run of non-whitespace
after the colon and optional whitespace.
-/

/-- Match `^KEY\s*:\s*(\S+)` against a line, returning the group. -/
def matchKeyVal (key : Line) (l : Line) : Option Line :=
  if key.isPrefixOf l then
    match (l.drop key.length).dropWhile isSpc with
    | ':' :: r2 =>
      let tok := (r2.dropWhile isSpc).takeWhile (fun c => !isSpc c)
      if tok.isEmpty then none else some tok
    | _ => none
  else none

/-- The `^Version\s*:\s*(\S+)` matcher. -/
def matchVersion (l : Line) : Option Line := matchKeyVal (chars "Version") l

/-- The `^TKVersion\s*:\s*(\S+)` matcher. -/
def matchTk (l : Line) : Option Line := matchKeyVal (chars "TKVersion") l

/-- Observable outcome of one CLI run: stdout lines, stderr lines, exit status. -/
structure RunOut where
  out : List Line
  err : List Line
  code : Nat
deriving DecidableEq

/-- The fixed diagnostic message printed by both utilities. -/
def errMsg : Line := chars "ERROR: Could not find DESCRIPTION file."

/-- The scanning loop `for line in ...: m = re.search(...); if m: v = m.group(1)`:
the value retained is that of the last matching line. -/
def lastMatch (f : Line → Option Line) (lines : List Line) : Option Line :=
  lines.foldl (fun acc l => match f l with | some v => some v | none => acc) none

/-- `main` of `cicd/get-version.py`, as a function of the DESCRIPTION
file's lines and the `--as-expr` flag.  The surrounding
`sys.exit(main(args) or 0)` is folded into the exit code. -/
def get_version_main (lines : List Line) (asExpr : Bool) : RunOut :=
  match lastMatch matchVersion lines with
  | some v =>
    if v.isEmpty then ⟨[], [errMsg], 1⟩
    else ⟨[if asExpr then chars "==" ++ v else v], [], 0⟩
  | none => ⟨[], [errMsg], 1⟩

/-- The per-match adjustment in `get-basename.py`:
`if tk_version == 'none': tk_version = 'REST-only'`. -/
def tkAdjust (t : Line) : Line := if t = chars "none" then chars "REST-only" else t

/-- The single scanning loop of `get-basename.py`, updating
`(version, tk_version)` across the lines. -/
def bnScan (lines : List Line) : Option Line × Option Line :=
  lines.foldl
    (fun acc l =>
      (match matchVersion l with | some x => some x | none => acc.1,
       match matchTk l with | some x => some (tkAdjust x) | none => acc.2))
    (none, none)

/-- Python's `'{}'.format(x)` on the `tk_version` slot: the string
itself, or the literal `None` when the variable was never assigned. -/
def tkRepr : Option Line → Line
  | none => chars "None"
  | some t => t

/-- `main` of `cicd/get-basename.py`, as a function of the DESCRIPTION
file's lines, the `--platform` value and the `--full` flag. -/
def get_basename_main (lines : List Line) (plat : Line) (full : Bool) : RunOut :=
  let s := bnScan lines
  match s.1 with
  | some v =>
    if v.isEmpty then ⟨[], [errMsg], 1⟩
    else if full then
      ⟨[chars "R-swat-" ++ v ++ chars "+" ++ tkRepr s.2 ++ chars "-" ++ plat], [], 0⟩
    else ⟨[chars "R-swat-" ++ v], [], 0⟩
  | none => ⟨[], [errMsg], 1⟩

/-!
### Spec-side extraction order

The specification speaks of the value of the *first* matching line.
These definitions follow the spec's words; `lastMatchSpec` is the
order the code actually implements (kept value of the last match).
-/

/-- Value of the first line matched by `f` (the specification's words). -/
def firstMatchSpec (f : Line → Option Line) (lines : List Line) : Option Line :=
  lines.findSome? f

/-- Value of the last line matched by `f`. -/
def lastMatchSpec (f : Line → Option Line) (lines : List Line) : Option Line :=
  lines.reverse.findSome? f

/-!
### Version-matrix discovery (`get_supported_versions`, `cicd/tar2conda.py`)

The function queries `conda search --json` once per dependency package
(`r::r-dplyr`, `r::r-httr`, `r::r-testthat`, `r::r-xlsx`, in that
order) and walks each returned release item's `depends` list.  The
network/JSON layer is pure input here: the embedding takes the list of
search results (one list of items per dependency package, in query
order) as its argument.  Everything from the `depends` parsing on is
modelled from the source.
-/

/-- One release item of a `conda search --json` result: its `depends` strings. -/
structure SearchItem where
  depends : List Line
deriving DecidableEq

/-- Python exceptions that `get_supported_versions` can raise. -/
inductive PyErr where
  | keyError
  | indexError
deriving DecidableEq

/-- The `vers = dict(r=set(), mro=set())` accumulator (sets as dup-free lists). -/
structure RVers where
  r : List Line
  mro : List Line
deriving DecidableEq

/-- Python `set.add`. -/
def setAdd (s : List Line) (x : Line) : List Line :=
  if x ∈ s then s else s ++ [x]

/-- Python `set.remove`: `KeyError` when the element is absent. -/
def setRemove (s : List Line) (x : Line) : Except PyErr (List Line) :=
  if x ∈ s then .ok (s.erase x) else .error .keyError

/-- `rver.split('-')[0]`: the prefix before the first dash. -/
def baseOf (dep : Line) : Line := dep.takeWhile (fun c => c != '-')

/-- Try the regex `(\d+\.\d+(?:\.\d+)?)` anchored at the start of `l`:
a maximal digit run, a dot, a maximal digit run, and optionally a dot
followed by a maximal digit run. -/
def matchVerAt (l : Line) : Option Line :=
  let d1 := l.takeWhile Char.isDigit
  if d1.isEmpty then none else
  match l.drop d1.length with
  | '.' :: r2 =>
    let d2 := r2.takeWhile Char.isDigit
    if d2.isEmpty then none else
    match r2.drop d2.length with
    | '.' :: r3 =>
      let d3 := r3.takeWhile Char.isDigit
      if d3.isEmpty then some (d1 ++ '.' :: d2)
      else some (d1 ++ '.' :: d2 ++ '.' :: d3)
    | _ => some (d1 ++ '.' :: d2)
  | _ => none

/-- `re.findall(r'(\d+\.\d+(?:\.\d+)?)', rver)[0]`: the leftmost match,
or `none` when the pattern matches nowhere (Python: `IndexError`). -/
def findFirstVer : Line → Option Line
  | [] => none
  | c :: r =>
    match matchVerAt (c :: r) with
    | some v => some v
    | none => findFirstVer r

/-- The `rver = [x for x in item['depends'] if x.startswith('r-base') or
x.startswith('mro-base')]` comprehension followed by `rver[0]` (with
the `if not rver: continue` guard as `none`). -/
def entryRVer (item : SearchItem) : Option Line :=
  (item.depends.filter fun d =>
    (chars "r-base").isPrefixOf d || (chars "mro-base").isPrefixOf d).head?

/-- The guarded version extraction: `re.findall(...)[0]` with the
`except IndexError` fallback to `'3.4.3'` when `base == 'mro'`. -/
def entryVersion (dep : Line) : Except PyErr Line :=
  match findFirstVer dep with
  | some v => .ok v
  | none =>
    if baseOf dep = chars "mro" then .ok (chars "3.4.3")
    else .error .indexError

/-- The body of the inner `for item in ...` loop of
`get_supported_versions`, for dependency-package index `i`. -/
def processItem (i : Nat) (vs : RVers) (item : SearchItem) : Except PyErr RVers :=
  match entryRVer item with
  | none => .ok vs
  | some dep =>
    let base := baseOf dep
    match entryVersion dep with
    | .error e => .error e
    | .ok rver =>
      if base = chars "r" then
        if i = 0 then .ok ⟨setAdd vs.r rver, vs.mro⟩
        else if rver ∈ vs.r then .ok vs
        else (setRemove vs.r rver).map fun s => ⟨s, vs.mro⟩
      else if base = chars "mro" then
        if i = 0 then .ok ⟨vs.r, setAdd vs.mro rver⟩
        else if rver ∈ vs.mro then .ok vs
        else (setRemove vs.mro rver).map fun s => ⟨vs.r, s⟩
      else .error .keyError

/-- One dependency package's item list, folded through `processItem`. -/
def processPkg (i : Nat) (vs : RVers) (items : List SearchItem) : Except PyErr RVers :=
  items.foldlM (processItem i) vs

/-- Lexicographic (code-point) order on strings, Python's `sorted` order. -/
def lexLe : Line → Line → Bool
  | [], _ => true
  | _ :: _, [] => false
  | x :: xs, y :: ys =>
    if x.val < y.val then true
    else if x = y then lexLe xs ys
    else false

/-- Insertion into a `lexLe`-sorted list. -/
def insertLe (x : Line) : List Line → List Line
  | [] => [x]
  | y :: ys => if lexLe x y then x :: y :: ys else y :: insertLe x ys

/-- Python `sorted` on a set of strings (insertion sort; the input has
no duplicates, so stability is irrelevant). -/
def sortLines (l : List Line) : List Line := l.foldr insertLe []

/-- `get_supported_versions` of `cicd/tar2conda.py`, as a function of
the four dependency packages' search results (in query order). -/
def get_supported_versions (results : List (List SearchItem)) :
    Except PyErr (List Line × List Line) := do
  let vers ← results.enum.foldlM (fun vs p => processPkg p.1 vs p.2) (⟨[], []⟩ : RVers)
  pure (sortLines vers.r, sortLines vers.mro)

example : findFirstVer (chars "r-base 3.4.1") = some (chars "3.4.1") := by decide

example : findFirstVer (chars "mro-base") = none := by decide

example : get_supported_versions
    [[⟨[chars "r-base 3.1"]⟩, ⟨[chars "r-base 3.2"]⟩, ⟨[chars "r-base 3.3"]⟩],
     [⟨[chars "r-base 3.2"]⟩, ⟨[chars "r-base 3.3"]⟩],
     [⟨[chars "r-base 3.1"]⟩, ⟨[chars "r-base 3.2"]⟩],
     [⟨[chars "r-base 3.2"]⟩]] =
    .ok ([chars "3.1", chars "3.2", chars "3.3"], []) := by rfl

example : get_supported_versions
    [[⟨[chars "r-base 3.4.1"]⟩], [⟨[chars "r-base 3.5.0"]⟩], [], []] =
    .error .keyError := by rfl

/-!
### Recipe rewriting (`update_recipe`, `cicd/tar2conda.py`)

`update_recipe(recipe, **kwargs)` reads the recipe file line by line and
writes it back:

* any line containing `sha256` is dropped;
* when the `url` keyword argument is truthy, backslashes in it are
  replaced by slashes and the regex
  `^(\s+)(?:url|path):.*?(\s*#\s*\[.+?\]\s*)?$` is substituted with
  `\1path: URL\2` or `\1url: URL\2` depending on `os.path.isdir(url)`
  (the filesystem answer is the `isdir` argument here, fixed for a run);
* for every other keyword `key=value`, the regex
  `^({%\s*set\s+KEY\s*=\s*)'[^']+'(\s*%}\s*)$` is substituted with
  `\1'VALUE'\2`;
* each output line is `rstrip`-ped, and the lines are joined with a
  newline after each line.

Both anchored regexes admit at most one match per line and their
engines are deterministic except for the lazy `.*?` before the optional
trailing-comment group, whose semantics is: the group takes the longest
suffix of the remainder that fully matches `\s*#\s*\[.+?\]\s*`, and is
empty when no suffix matches.  The parsers below implement exactly
that.  The embedding assumes keys are identifier-like (nonempty words
of alphanumerics and underscores, as in the actual calls), since other
keys would be interpreted as regex metacharacters by `re`.  Lines are
newline-free, as delivered by file iteration (modulo the trailing
newline, removed here, which only ever feeds the trailing `\s*$` and
`rstrip`).
-/

/-- Group structure of a matched `{% set KEY = 'VALUE' %}` line:
`g1` is the first capture (up to and including `=` and the following
whitespace), `val` the quoted value, `g2` the second capture. -/
structure VarParse where
  g1 : Line
  val : Line
  g2 : Line
deriving DecidableEq

/-- Deterministic parse of `^({%\s*set\s+KEY\s*=\s*)'[^']+'(\s*%}\s*)$`. -/
def parseVar (key l : Line) : Option VarParse :=
  match l with
  | '\x7b' :: '%' :: r1 =>
    let w1 := r1.takeWhile isSpc
    let r2 := r1.dropWhile isSpc
    if (chars "set").isPrefixOf r2 then
      let r3 := r2.drop 3
      let w2 := r3.takeWhile isSpc
      if w2.isEmpty then none else
      let r4 := r3.dropWhile isSpc
      if key.isPrefixOf r4 then
        let r5 := r4.drop key.length
        let w3 := r5.takeWhile isSpc
        match r5.dropWhile isSpc with
        | '=' :: r6 =>
          let w4 := r6.takeWhile isSpc
          match r6.dropWhile isSpc with
          | '\x27' :: r8 =>
            let v := r8.takeWhile (fun c => c != '\x27')
            if v.isEmpty then none else
            match r8.dropWhile (fun c => c != '\x27') with
            | '\x27' :: r9 =>
              match r9.dropWhile isSpc with
              | '%' :: '\x7d' :: r10 =>
                if r10.all isSpc then
                  some ⟨'\x7b' :: '%' :: (w1 ++ chars "set" ++ w2 ++ key ++ w3 ++ '=' :: w4),
                        v, r9⟩
                else none
              | _ => none
            | _ => none
          | _ => none
        | _ => none
      else none
    else none
  | _ => none

/-- The `re.sub` for one `key=value` pair: replacement `\1'VALUE'\2`. -/
def varSub (key value l : Line) : Line :=
  match parseVar key l with
  | some p => p.g1 ++ ('\x27' :: value) ++ ('\x27' :: p.g2)
  | none => l

/-- Full match of the trailing-comment pattern `\s*#\s*\[.+?\]\s*`:
after optional whitespace, `#`, optional whitespace and `[`, the
remainder must contain a `]` with at least one character between the
brackets and nothing but whitespace after it (necessarily its last
`]` once right-stripped). -/
def fullmatchC (b : Line) : Bool :=
  match b.dropWhile isSpc with
  | '#' :: r2 =>
    match r2.dropWhile isSpc with
    | '[' :: r3 =>
      let s := rstrip r3
      decide (2 ≤ s.length) && (s.getLast? == some ']')
    | _ => false
  | _ => false

/-- The lazy-group semantics: the longest suffix fully matching the
trailing-comment pattern, if any. -/
def findC : Line → Option Line
  | [] => none
  | l@(_ :: t) => if fullmatchC l then some l else findC t

/-- Parse of `^(\s+)(?:url|path):`, returning the leading whitespace
(group 1) and the remainder of the line. -/
def parseSrc (l : Line) : Option (Line × Line) :=
  let w := l.takeWhile isSpc
  if w.isEmpty then none else
  let r := l.dropWhile isSpc
  if (chars "url:").isPrefixOf r then some (w, r.drop 4)
  else if (chars "path:").isPrefixOf r then some (w, r.drop 5)
  else none

/-- The source-location `re.sub`: replacement `\1path: URL\2` or
`\1url: URL\2`. -/
def srcSub (u : Line) (isdir : Bool) (l : Line) : Line :=
  match parseSrc l with
  | none => l
  | some (w, rest) =>
    w ++ (if isdir then chars "path: " else chars "url: ") ++ u ++ ((findC rest).getD [])

/-- `url = url.replace('\\', '/')`. -/
def normUrl (u : Line) : Line := u.map fun c => if c = '\\' then '/' else c

/-- The body of `update_recipe`'s line loop: `sha256` lines are
dropped; otherwise the source substitution (when the url is truthy)
and then every non-`url` keyword substitution are applied in order,
and the result is right-stripped. -/
def lineStep (u : Line) (isdir : Bool) (ps : List (Line × Line)) (l : Line) : Option Line :=
  if isSub (chars "sha256") l then none
  else
    let l1 := if u.isEmpty then l else srcSub u isdir l
    some (rstrip (ps.foldl
      (fun cur kv => if kv.1 = chars "url" then cur else varSub kv.1 kv.2 cur) l1))

/-- `update_recipe` on the file's line list.  `url` is the `url`
keyword argument (normalised inside, as in the source), `isdir` the
`os.path.isdir` answer for it, `ps` the keyword/value pairs in keyword
order. -/
def updateRecipeLines (url : Line) (isdir : Bool) (ps : List (Line × Line))
    (lines : List Line) : List Line :=
  lines.filterMap (lineStep (normUrl url) isdir ps)

/-- `'\n'.join(out)` plus the final `write('\n')`. -/
def renderFile (ls : List Line) : Line := (List.intercalate ['\n'] ls) ++ ['\n']

/-- Splitting accumulator for `splitLines`. -/
def splitNlAux (acc : Line) : Line → List Line
  | [] => [acc.reverse]
  | c :: r => if c = '\n' then acc.reverse :: splitNlAux [] r else splitNlAux (c :: acc) r

/-- Python text-file iteration: the lines of a content string, without
their newline terminators (a trailing newline ends the last line
rather than opening an empty one). -/
def splitLines (content : Line) : List Line :=
  if content.isEmpty then [] else
  let ps := splitNlAux [] content
  if ps.getLast? = some [] then ps.dropLast else ps

/-- `update_recipe` as a file transformer: read the recipe's content,
rewrite its lines, write the joined result back. -/
def update_recipe (url : Line) (isdir : Bool) (ps : List (Line × Line))
    (content : Line) : Line :=
  renderFile (updateRecipeLines url isdir ps (splitLines content))

/-- Identifier-shaped substitution keys (the actual calls use
`version`, `r_base`, `r_version`): nonempty words of alphanumerics or
underscores.  Other keys would act as regex metacharacters. -/
def keyChar (c : Char) : Bool := c.isAlphanum || c = '_'

/-- A well-formed, identifier-shaped key. -/
def keyOK (k : Line) : Prop := k ≠ [] ∧ ∀ c ∈ k, keyChar c = true

instance keyOK_dec (k : Line) : Decidable (keyOK k) :=
  inferInstanceAs (Decidable (k ≠ [] ∧ ∀ c ∈ k, keyChar c = true))

/-!
### Basic lemmas about the scanning loops
-/

theorem findSomeAppend (f : Line → Option Line) (a b : List Line) :
    (a ++ b).findSome? f =
      match a.findSome? f with
      | some v => some v
      | none => b.findSome? f := by
  induction a with
  | nil => rfl
  | cons x xs ih =>
    simp only [List.cons_append, List.findSome?_cons]
    cases f x <;> simp [ih]

theorem foldKeep_eq (f : Line → Option Line) (lines : List Line) :
    ∀ acc : Option Line,
      lines.foldl (fun a l => match f l with | some v => some v | none => a) acc =
        match lines.reverse.findSome? f with
        | some v => some v
        | none => acc := by
  induction lines with
  | nil => intro acc; rfl
  | cons l ls ih =>
    intro acc
    simp only [List.foldl_cons, List.reverse_cons]
    rw [ih, findSomeAppend]
    cases ls.reverse.findSome? f
    · simp only [List.findSome?_cons, List.findSome?_nil]
      cases f l <;> rfl
    · rfl

theorem lastMatch_eq (f : Line → Option Line) (lines : List Line) :
    lastMatch f lines = lastMatchSpec f lines := by
  unfold lastMatch lastMatchSpec
  rw [foldKeep_eq]
  cases lines.reverse.findSome? f <;> rfl

theorem bnScan_eq (lines : List Line) :
    bnScan lines =
      (lastMatch matchVersion lines,
       lastMatch (fun l => (matchTk l).map tkAdjust) lines) := by
  unfold bnScan lastMatch
  suffices h : ∀ a b : Option Line,
      lines.foldl
        (fun acc l =>
          (match matchVersion l with | some x => some x | none => acc.1,
           match matchTk l with | some x => some (tkAdjust x) | none => acc.2)) (a, b) =
      (lines.foldl (fun acc l => match matchVersion l with | some v => some v | none => acc) a,
       lines.foldl (fun acc l => match (matchTk l).map tkAdjust with | some v => some v | none => acc) b) by
    simpa using h none none
  induction lines with
  | nil => intro a b; rfl
  | cons l ls ih =>
    intro a b
    simp only [List.foldl_cons]
    rw [ih]
    cases matchVersion l <;> cases h : matchTk l <;> simp [h]

theorem findSomeMap (g : Line → Line) (f : Line → Option Line) (l : List Line) :
    l.findSome? (fun x => (f x).map g) = (l.findSome? f).map g := by
  induction l with
  | nil => rfl
  | cons x xs ih =>
    simp only [List.findSome?_cons]
    cases f x <;> simp [ih]

theorem findSomeNone (f : Line → Option Line) (l : List Line)
    (h : ∀ x ∈ l, f x = none) : l.findSome? f = none := by
  induction l with
  | nil => rfl
  | cons x xs ih =>
    simp only [List.findSome?_cons, h x (List.mem_cons_self x xs)]
    exact ih fun y hy => h y (List.mem_cons_of_mem x hy)

theorem findSomeImp {f : Line → Option Line} :
    ∀ {l : List Line} {v : Line}, l.findSome? f = some v → ∃ x ∈ l, f x = some v := by
  intro l
  induction l with
  | nil => intro v h; simp [List.findSome?] at h
  | cons x xs ih =>
    intro v h
    simp only [List.findSome?_cons] at h
    cases hx : f x with
    | some w => rw [hx] at h; exact ⟨x, List.mem_cons_self x xs, hx.trans h⟩
    | none =>
      rw [hx] at h
      obtain ⟨y, hy, hfy⟩ := ih h
      exact ⟨y, List.mem_cons_of_mem x hy, hfy⟩

theorem matchKeyVal_nonempty {key l v : Line} (h : matchKeyVal key l = some v) :
    v.isEmpty = false := by
  unfold matchKeyVal at h
  split at h
  · split at h
    · simp only [] at h
      split at h
      · exact absurd h (by simp)
      · rename_i htok
        simp only [Option.some.injEq] at h
        subst h
        simpa using htok
    · exact absurd h (by simp)
  · exact absurd h (by simp)

theorem lastMatchSpec_nonempty {key : Line} {lines : List Line} {v : Line}
    (h : lastMatchSpec (matchKeyVal key) lines = some v) : v.isEmpty = false := by
  obtain ⟨l, _, hl⟩ := findSomeImp h
  exact matchKeyVal_nonempty hl

example : get_version_main [chars "Version: 1.2.3"] false = ⟨[chars "1.2.3"], [], 0⟩ := by decide

example : get_version_main [chars "Version: 1.2.3"] true = ⟨[chars "==1.2.3"], [], 0⟩ := by decide

example : get_basename_main [chars "Version: 9.8", chars "TKVersion: none"]
    (chars "linux-64") true = ⟨[chars "R-swat-9.8+REST-only-linux-64"], [], 0⟩ := by decide

example : get_platform (chars "Linux") (chars "x86_64") = chars "linux-64" := by decide

example : get_platform (chars "FreeBSD") (chars "amd64") = chars "unknown" := by decide

/-!
### String-manipulation lemmas for the recipe rewriter
-/

theorem takeWhile_append_of_all {p : Char → Bool} {a : Line} (h : ∀ c ∈ a, p c = true)
    (b : Line) : (a ++ b).takeWhile p = a ++ b.takeWhile p := by
  induction a with
  | nil => rfl
  | cons x xs ih =>
    have hx : p x = true := h x (List.mem_cons_self _ _)
    simp only [List.cons_append, List.takeWhile_cons, hx, if_true]
    rw [ih fun c hc => h c (List.mem_cons_of_mem _ hc)]

theorem dropWhile_append_of_all {p : Char → Bool} {a : Line} (h : ∀ c ∈ a, p c = true)
    (b : Line) : (a ++ b).dropWhile p = b.dropWhile p := by
  induction a with
  | nil => rfl
  | cons x xs ih =>
    have hx : p x = true := h x (List.mem_cons_self _ _)
    simp only [List.cons_append, List.dropWhile_cons, hx, if_true]
    exact ih fun c hc => h c (List.mem_cons_of_mem _ hc)

theorem dropWhile_append_of_stop {p : Char → Bool} {a : Line} (h : a.dropWhile p ≠ [])
    (b : Line) : (a ++ b).dropWhile p = a.dropWhile p ++ b := by
  induction a with
  | nil => exact absurd rfl h
  | cons x xs ih =>
    by_cases hx : p x = true
    · rw [List.dropWhile_cons, hx] at h
      simp only [List.cons_append, List.dropWhile_cons, hx, if_true]
      simpa using ih (by simpa using h)
    · have hx' : p x = false := by simpa using hx
      simp [List.dropWhile_cons, hx']

theorem dropWhile_head_false {p : Char → Bool} :
    ∀ {l : Line} {x : Char} {t : Line}, l.dropWhile p = x :: t → p x = false := by
  intro l
  induction l with
  | nil => intro x t h; simp at h
  | cons a as ih =>
    intro x t h
    rw [List.dropWhile_cons] at h
    by_cases ha : p a = true
    · rw [ha] at h; simpa using ih h
    · rw [if_neg (by simpa using ha)] at h
      obtain ⟨rfl, -⟩ := List.cons.inj h
      simpa using ha

theorem rstrip_append (a : Line) {b : Line} (hb : rstrip b ≠ []) :
    rstrip (a ++ b) = a ++ rstrip b := by
  have hb' : b.reverse.dropWhile isSpc ≠ [] := by
    intro h; exact hb (by simp [rstrip, h])
  unfold rstrip
  rw [List.reverse_append, dropWhile_append_of_stop hb', List.reverse_append,
    List.reverse_reverse]

theorem rstrip_eq_self_of_last {l : Line} {c : Char} (h : l.getLast? = some c)
    (hc : isSpc c = false) : rstrip l = l := by
  rw [List.getLast?_eq_head?_reverse] at h
  cases hrev : l.reverse with
  | nil => rw [hrev] at h; simp at h
  | cons d t =>
    rw [hrev] at h
    have hd : isSpc d = false := by
      have hdc : d = c := by simpa using h
      rw [hdc]
      exact hc
    have hdw : l.reverse.dropWhile isSpc = d :: t := by
      rw [hrev, List.dropWhile_cons, hd]
      simp
    unfold rstrip
    rw [hdw, ← hrev, List.reverse_reverse]

theorem rstrip_decomp (l : Line) :
    l = rstrip l ++ (l.reverse.takeWhile isSpc).reverse ∧
      ∀ c ∈ (l.reverse.takeWhile isSpc).reverse, isSpc c = true := by
  constructor
  · conv_lhs => rw [← List.reverse_reverse l, ← List.takeWhile_append_dropWhile isSpc l.reverse]
    rw [List.reverse_append]
    rfl
  · intro c hc
    exact List.mem_takeWhile_imp (List.mem_reverse.mp hc)

theorem rstrip_pref (l : Line) : rstrip l <+: l :=
  ⟨(l.reverse.takeWhile isSpc).reverse, ((rstrip_decomp l).1).symm⟩

theorem rstrip_idem (l : Line) : rstrip (rstrip l) = rstrip l := by
  unfold rstrip
  rw [List.reverse_reverse]
  cases h : l.reverse.dropWhile isSpc with
  | nil => simp
  | cons x t =>
    have hx : isSpc x = false := dropWhile_head_false h
    rw [List.dropWhile_cons, hx]
    simp

theorem rstrip_eq_nil_of_all {l : Line} (h : ∀ c ∈ l, isSpc c = true) : rstrip l = [] := by
  unfold rstrip
  have : l.reverse.dropWhile isSpc = [] := by
    rw [List.dropWhile_eq_nil_iff]
    exact fun c hc => h c (List.mem_reverse.mp hc)
  simp [this]

theorem isSub_iff (p l : Line) : isSub p l = true ↔ p <:+: l := by
  induction l with
  | nil =>
    show p.isEmpty = true ↔ _
    rw [List.isEmpty_iff, List.infix_nil]
  | cons c t ih =>
    show (p.isPrefixOf (c :: t) || isSub p t) = true ↔ _
    rw [Bool.or_eq_true, List.isPrefixOf_iff_prefix, ih, List.infix_cons_iff]

theorem infix_append_split {p : Line} : ∀ {a b : Line}, p <:+: a ++ b →
    p <:+: a ∨ p <:+: b ∨
      ∃ s t, p = s ++ t ∧ s ≠ [] ∧ t ≠ [] ∧ s <:+ a ∧ t <+: b := by
  intro a
  induction a with
  | nil => intro b h; exact Or.inr (Or.inl h)
  | cons c a' ih =>
    intro b h
    rw [List.cons_append, List.infix_cons_iff] at h
    cases h with
    | inr h2 =>
      rcases ih h2 with h | h | ⟨s, t, hp, hs, ht, hsa, htb⟩
      · exact Or.inl (List.infix_cons_iff.mpr (Or.inr h))
      · exact Or.inr (Or.inl h)
      · exact Or.inr (Or.inr ⟨s, t, hp, hs, ht, hsa.trans (List.suffix_cons c a'), htb⟩)
    | inl h1 =>
      by_cases hlen : p.length ≤ (c :: a').length
      · exact Or.inl
          (List.prefix_of_prefix_length_le h1 (List.prefix_append (c :: a') b) hlen).isInfix
      · push_neg at hlen
        have ha : (c :: a') <+: p :=
          List.prefix_of_prefix_length_le (List.prefix_append _ b) h1 (le_of_lt hlen)
        obtain ⟨t, rfl⟩ := ha
        have htb : t <+: b := (List.prefix_append_right_inj (c :: a')).mp h1
        by_cases ht : t = []
        · subst ht
          exact Or.inl (by simpa using List.infix_rfl)
        · exact Or.inr (Or.inr ⟨c :: a', t, rfl, by simp, ht, List.suffix_rfl, htb⟩)

theorem sha_chars {c : Char} (hc : c ∈ chars "sha256") :
    c = 's' ∨ c = 'h' ∨ c = 'a' ∨ c = '2' ∨ c = '5' ∨ c = '6' := by
  have he : chars "sha256" = ['s', 'h', 'a', '2', '5', '6'] := rfl
  rw [he] at hc
  simpa using hc

theorem spc_not_sha {c : Char} (hc : isSpc c = true) : c ∉ chars "sha256" := by
  intro hmem
  rcases sha_chars hmem with rfl | rfl | rfl | rfl | rfl | rfl <;>
    exact absurd hc (by decide)

theorem sha_not_infix_cons {c : Char} {l : Line} (hc : c ≠ 's')
    (hl : ¬ chars "sha256" <:+: l) : ¬ chars "sha256" <:+: c :: l := by
  rw [List.infix_cons_iff]
  rintro (h | h)
  · obtain ⟨t, ht⟩ := h
    have he : chars "sha256" = 's' :: chars "ha256" := rfl
    rw [he, List.cons_append] at ht
    exact hc (List.cons.inj ht).1.symm
  · exact hl h

theorem sha_append_right {a b : Line} (ha : ¬ chars "sha256" <:+: a)
    (hb : ¬ chars "sha256" <:+: b)
    (hB : ∀ c, b.head? = some c → c ∉ chars "sha256") :
    ¬ chars "sha256" <:+: a ++ b := by
  intro h
  rcases infix_append_split h with h | h | ⟨s, t, hp, hs, ht, hsa, htb⟩
  · exact ha h
  · exact hb h
  · cases t with
    | nil => exact ht rfl
    | cons x ts =>
      have hxb : b.head? = some x := by
        obtain ⟨u, hu⟩ := htb
        rw [← hu]
        rfl
      have hxsha : x ∈ chars "sha256" := by
        have : x ∈ s ++ x :: ts := List.mem_append_right s (List.mem_cons_self _ _)
        rwa [← hp] at this
      exact hB x hxb hxsha

theorem sha_append_left {a b : Line} (ha : ¬ chars "sha256" <:+: a)
    (hb : ¬ chars "sha256" <:+: b) (hA : 's' ∉ a) : ¬ chars "sha256" <:+: a ++ b := by
  intro h
  rcases infix_append_split h with h | h | ⟨s, t, hp, hs, ht, hsa, htb⟩
  · exact ha h
  · exact hb h
  · cases s with
    | nil => exact hs rfl
    | cons x ss =>
      have he : chars "sha256" = 's' :: chars "ha256" := rfl
      rw [he, List.cons_append] at hp
      obtain ⟨hx, -⟩ := List.cons.inj hp
      subst hx
      exact hA (hsa.sublist.subset (List.mem_cons_self _ _))

theorem spc_no_s {a : Line} (h : ∀ c ∈ a, isSpc c = true) : 's' ∉ a :=
  fun hm => absurd (h _ hm) (by decide)

theorem sha_not_in_spc {a : Line} (h : ∀ c ∈ a, isSpc c = true) :
    ¬ chars "sha256" <:+: a := by
  intro hin
  exact spc_no_s h (hin.sublist.subset (by decide : 's' ∈ chars "sha256"))

theorem normUrl_eq_self {u : Line} (h : '\\' ∉ u) : normUrl u = u := by
  induction u with
  | nil => rfl
  | cons x xs ih =>
    have hx : x ≠ '\\' := fun he => h (he ▸ List.mem_cons_self _ _)
    show (if x = '\\' then '/' else x) :: normUrl xs = x :: xs
    rw [if_neg hx, ih fun hm => h (List.mem_cons_of_mem _ hm)]

theorem parseVar_some {key l : Line} {p : VarParse} (h : parseVar key l = some p) :
    p.val ≠ [] ∧ '\x27' ∉ p.val ∧
    l = p.g1 ++ ('\x27' :: p.val) ++ ('\x27' :: p.g2) ∧
    (∃ w1 w2 w3 w4, (∀ c ∈ w1, isSpc c = true) ∧ (∀ c ∈ w2, isSpc c = true) ∧ w2 ≠ [] ∧
      (∀ c ∈ w3, isSpc c = true) ∧ (∀ c ∈ w4, isSpc c = true) ∧
      p.g1 = '\x7b' :: '%' :: (w1 ++ chars "set" ++ w2 ++ key ++ w3 ++ '=' :: w4)) ∧
    (∃ w5 r10, (∀ c ∈ w5, isSpc c = true) ∧ (∀ c ∈ r10, isSpc c = true) ∧
      p.g2 = w5 ++ '%' :: '\x7d' :: r10) := by
  unfold parseVar at h
  split at h <;> try exact Option.noConfusion h
  rename_i r1
  simp only [] at h
  split at h <;> try exact Option.noConfusion h
  rename_i hset
  split at h <;> try exact Option.noConfusion h
  rename_i hw2
  split at h <;> try exact Option.noConfusion h
  rename_i hkey
  split at h <;> try exact Option.noConfusion h
  rename_i r6 heq6
  split at h <;> try exact Option.noConfusion h
  rename_i r8 heq8
  split at h <;> try exact Option.noConfusion h
  rename_i hv
  split at h <;> try exact Option.noConfusion h
  rename_i r9 heq9
  split at h <;> try exact Option.noConfusion h
  rename_i r10 heq10
  split at h <;> try exact Option.noConfusion h
  rename_i hall
  obtain rfl := (Option.some.inj h).symm
  dsimp only
  obtain ⟨t2, ht2⟩ := List.isPrefixOf_iff_prefix.mp hset
  have ht2' : List.drop 3 (List.dropWhile isSpc r1) = t2 := by
    rw [← ht2, show (3 : Nat) = (chars "set").length from rfl]
    exact List.drop_left _ _
  rw [ht2'] at hw2 hkey heq6 ⊢
  obtain ⟨t4, ht4⟩ := List.isPrefixOf_iff_prefix.mp hkey
  have ht4' : List.drop key.length (List.dropWhile isSpc t2) = t4 := by
    rw [← ht4]
    exact List.drop_left _ _
  rw [ht4'] at heq6 ⊢
  rw [List.isEmpty_iff] at hv hw2
  refine ⟨hv, ?_, ?_, ?_, ?_⟩
  · intro hm
    have := List.mem_takeWhile_imp hm
    simp at this
  · have d1 : r1 = r1.takeWhile isSpc ++ (chars "set" ++ t2) := by
      conv_lhs => rw [← List.takeWhile_append_dropWhile isSpc r1]
      rw [← ht2]
    have d2 : t2 = t2.takeWhile isSpc ++ (key ++ t4) := by
      conv_lhs => rw [← List.takeWhile_append_dropWhile isSpc t2]
      rw [← ht4]
    have d3 : t4 = t4.takeWhile isSpc ++ ('=' :: r6) := by
      conv_lhs => rw [← List.takeWhile_append_dropWhile isSpc t4]
      rw [heq6]
    have d4 : r6 = r6.takeWhile isSpc ++ ('\x27' :: r8) := by
      conv_lhs => rw [← List.takeWhile_append_dropWhile isSpc r6]
      rw [heq8]
    have d5 : r8 = r8.takeWhile (fun c => c != '\x27') ++ ('\x27' :: r9) := by
      conv_lhs =>
        rw [← List.takeWhile_append_dropWhile (fun c => c != '\x27') r8]
      rw [heq9]
    conv_lhs => rw [d1, d2, d3, d4, d5]
    simp only [List.append_assoc, List.cons_append]
  · exact ⟨r1.takeWhile isSpc, t2.takeWhile isSpc, t4.takeWhile isSpc, r6.takeWhile isSpc,
      fun c hc => List.mem_takeWhile_imp hc, fun c hc => List.mem_takeWhile_imp hc, hw2,
      fun c hc => List.mem_takeWhile_imp hc, fun c hc => List.mem_takeWhile_imp hc, rfl⟩
  · refine ⟨r9.takeWhile isSpc, r10, fun c hc => List.mem_takeWhile_imp hc,
      List.all_eq_true.mp hall, ?_⟩
    conv_lhs => rw [← List.takeWhile_append_dropWhile isSpc r9]
    rw [heq10]

theorem parseSrc_some {l w rest : Line} (h : parseSrc l = some (w, rest)) :
    (∀ c ∈ w, isSpc c = true) ∧ w ≠ [] ∧
      (l = w ++ (chars "url:" ++ rest) ∨ l = w ++ (chars "path:" ++ rest)) := by
  unfold parseSrc at h
  simp only [] at h
  split at h <;> try exact Option.noConfusion h
  rename_i hw
  rw [List.isEmpty_iff] at hw
  split at h
  · rename_i hurl
    obtain ⟨rfl, hrest⟩ := Prod.mk.injEq .. ▸ (Option.some.inj h)
    obtain ⟨t, ht⟩ := List.isPrefixOf_iff_prefix.mp hurl
    have ht' : List.drop 4 (List.dropWhile isSpc l) = t := by
      rw [← ht, show (4 : Nat) = (chars "url:").length from rfl]
      exact List.drop_left _ _
    refine ⟨fun c hc => List.mem_takeWhile_imp hc, hw, Or.inl ?_⟩
    rw [← hrest, ht']
    conv_lhs => rw [← List.takeWhile_append_dropWhile isSpc l]
    rw [← ht]
  · split at h <;> try exact Option.noConfusion h
    rename_i hpath
    obtain ⟨rfl, hrest⟩ := Prod.mk.injEq .. ▸ (Option.some.inj h)
    obtain ⟨t, ht⟩ := List.isPrefixOf_iff_prefix.mp hpath
    have ht' : List.drop 5 (List.dropWhile isSpc l) = t := by
      rw [← ht, show (5 : Nat) = (chars "path:").length from rfl]
      exact List.drop_left _ _
    refine ⟨fun c hc => List.mem_takeWhile_imp hc, hw, Or.inr ?_⟩
    rw [← hrest, ht']
    conv_lhs => rw [← List.takeWhile_append_dropWhile isSpc l]
    rw [← ht]

theorem findC_some : ∀ {l s : Line}, findC l = some s → s <:+ l ∧ fullmatchC s = true := by
  intro l
  induction l with
  | nil => intro s h; exact Option.noConfusion h
  | cons c t ih =>
    intro s h
    unfold findC at h
    split at h
    · obtain rfl := Option.some.inj h
      exact ⟨List.suffix_rfl, by assumption⟩
    · obtain ⟨hs, hm⟩ := ih h
      exact ⟨hs.trans (List.suffix_cons c t), hm⟩

theorem fullmatchC_head {s : Line} (h : fullmatchC s = true) :
    ∀ c, s.head? = some c → isSpc c = true ∨ c = '#' := by
  intro c hc
  by_cases hsp : isSpc c = true
  · exact Or.inl hsp
  · right
    cases s with
    | nil => exact Option.noConfusion hc
    | cons x t =>
      obtain rfl : x = c := by simpa using hc
      unfold fullmatchC at h
      rw [List.dropWhile_cons, if_neg (by simpa using hsp)] at h
      split at h <;> try exact Bool.noConfusion h
      rename_i r2 heq
      exact (List.cons.inj heq).1

theorem varSub_sha {key value l : Line} (hl : ¬ chars "sha256" <:+: l)
    (hv : ¬ chars "sha256" <:+: value) :
    ¬ chars "sha256" <:+: varSub key value l := by
  unfold varSub
  cases h : parseVar key l with
  | none => exact hl
  | some p =>
    dsimp only
    obtain ⟨-, -, hdec, -, -⟩ := parseVar_some h
    have hg1 : ¬ chars "sha256" <:+: p.g1 := by
      intro hin
      have hpre : p.g1 <+: l := by
        refine ⟨('\x27' :: p.val) ++ ('\x27' :: p.g2), ?_⟩
        rw [hdec]
        simp
      exact hl (hin.trans hpre.isInfix)
    have hg2 : ¬ chars "sha256" <:+: p.g2 := by
      intro hin
      refine hl (hin.trans (List.IsSuffix.isInfix ⟨p.g1 ++ ('\x27' :: p.val) ++ ['\x27'], ?_⟩))
      rw [hdec]
      simp
    refine sha_append_right (sha_append_right hg1 ?_ ?_) ?_ ?_
    · exact sha_not_infix_cons (by decide) hv
    · intro c hc
      simp only [List.head?_cons, Option.some.injEq] at hc
      subst hc
      decide
    · exact sha_not_infix_cons (by decide) hg2
    · intro c hc
      simp only [List.head?_cons, Option.some.injEq] at hc
      subst hc
      decide

theorem srcSub_sha {u l : Line} {isdir : Bool} (hl : ¬ chars "sha256" <:+: l)
    (hu : ¬ chars "sha256" <:+: u) :
    ¬ chars "sha256" <:+: srcSub u isdir l := by
  unfold srcSub
  cases h : parseSrc l with
  | none => exact hl
  | some wr =>
    obtain ⟨w, rest⟩ := wr
    dsimp only
    obtain ⟨hwspc, -, hdec⟩ := parseSrc_some h
    have hrest : rest <:+ l := by
      rcases hdec with hd | hd
      · exact ⟨w ++ chars "url:", by rw [hd]; simp⟩
      · exact ⟨w ++ chars "path:", by rw [hd]; simp⟩
    have hs2 : ¬ chars "sha256" <:+: (findC rest).getD [] ∧
        (∀ c, ((findC rest).getD []).head? = some c → c ∉ chars "sha256") := by
      cases hf : findC rest with
      | none =>
        refine ⟨?_, by simp⟩
        rw [Option.getD_none, List.infix_nil]
        decide
      | some s2 =>
        obtain ⟨hsuf, hm⟩ := findC_some hf
        constructor
        · intro hin
          exact hl (hin.trans (hsuf.trans hrest).isInfix)
        · intro c hc hcs
          rcases fullmatchC_head hm c hc with hspc | rfl
          · exact spc_not_sha hspc hcs
          · revert hcs
            decide
    rw [List.append_assoc, List.append_assoc]
    refine sha_append_left (sha_not_in_spc hwspc) ?_ (spc_no_s hwspc)
    refine sha_append_left ?_ ?_ ?_
    · cases isdir
      · rw [if_neg (by decide), ← isSub_iff]
        decide
      · rw [if_pos rfl, ← isSub_iff]
        decide
    · exact sha_append_right hu hs2.1 hs2.2
    · cases isdir
      · rw [if_neg (by decide)]
        decide
      · rw [if_pos rfl]
        decide

theorem foldVar_sha (ps : List (Line × Line)) :
    ∀ cur, ¬ chars "sha256" <:+: cur →
      (∀ kv ∈ ps, ¬ chars "sha256" <:+: kv.2) →
      ¬ chars "sha256" <:+:
        ps.foldl (fun cur kv =>
          if kv.1 = chars "url" then cur else varSub kv.1 kv.2 cur) cur := by
  induction ps with
  | nil => intro cur h _; exact h
  | cons kv ps ih =>
    intro cur h hps
    simp only [List.foldl_cons]
    refine ih _ ?_ fun kv' hm => hps kv' (List.mem_cons_of_mem _ hm)
    by_cases hk : kv.1 = chars "url"
    · rw [if_pos hk]; exact h
    · rw [if_neg hk]
      exact varSub_sha h (hps kv (List.mem_cons_self _ _))

theorem lineStep_sha {u : Line} {isdir : Bool} {ps : List (Line × Line)} {l l' : Line}
    (hu : ¬ chars "sha256" <:+: u)
    (hps : ∀ kv ∈ ps, ¬ chars "sha256" <:+: kv.2)
    (h : lineStep u isdir ps l = some l') :
    ¬ chars "sha256" <:+: l' := by
  unfold lineStep at h
  split at h
  · exact Option.noConfusion h
  · rename_i hsha
    have hl : ¬ chars "sha256" <:+: l := by
      intro hin
      exact hsha ((isSub_iff _ _).mpr hin)
    simp only [] at h
    obtain rfl := (Option.some.inj h).symm
    have hl1 : ¬ chars "sha256" <:+: (if u.isEmpty then l else srcSub u isdir l) := by
      split
      · exact hl
      · exact srcSub_sha hl hu
    have hfold := foldVar_sha ps _ hl1 hps
    intro hin
    exact hfold (hin.trans (rstrip_pref _).isInfix)

theorem lineStep_sha_drop {u : Line} {isdir : Bool} {ps : List (Line × Line)} {l : Line}
    (h : isSub (chars "sha256") l = true) : lineStep u isdir ps l = none := by
  unfold lineStep
  rw [if_pos h]

theorem head?_append_of_ne_nil {a : Line} (h : a ≠ []) (b : Line) :
    (a ++ b).head? = a.head? := by
  cases a with
  | nil => exact absurd rfl h
  | cons x t => rfl

theorem getLast?_append_of_ne_nil (a : Line) {b : Line} (h : b ≠ []) :
    (a ++ b).getLast? = b.getLast? := by
  rw [List.getLast?_eq_head?_reverse, List.getLast?_eq_head?_reverse, List.reverse_append,
    head?_append_of_ne_nil (by simpa using h)]

theorem ne_of_spc {c d : Char} (h1 : isSpc c = true) (h2 : isSpc d = false) : c ≠ d := by
  intro he
  rw [he, h2] at h1
  exact Bool.noConfusion h1

theorem keyChar_not_spc {c : Char} (h : keyChar c = true) : isSpc c = false := by
  by_contra hs
  have hs' : isSpc c = true := by simpa using hs
  have hd : ((((c = ' ' ∨ c = '\t') ∨ c = '\n') ∨ c = '\x0d') ∨ c = '\x0b') ∨ c = '\x0c' := by
    simpa [isSpc] using hs'
  rcases hd with ((((rfl | rfl) | rfl) | rfl) | rfl) | rfl <;> exact absurd h (by decide)

theorem rstrip_cons_of_ne {c : Char} (hc : isSpc c = false) (x : Line) :
    rstrip (c :: x) = c :: rstrip x := by
  unfold rstrip
  rw [show (c :: x).reverse = x.reverse ++ [c] from by simp]
  by_cases hd : x.reverse.dropWhile isSpc = []
  · have hall : ∀ a ∈ x.reverse, isSpc a = true := List.dropWhile_eq_nil_iff.mp hd
    rw [dropWhile_append_of_all hall, hd]
    simp [List.dropWhile_cons, hc]
  · rw [dropWhile_append_of_stop hd]
    simp

theorem all_spc_of_rstrip_eq_nil {l : Line} (h : rstrip l = []) :
    ∀ c ∈ l, isSpc c = true := by
  intro c hc
  have hdw : l.reverse.dropWhile isSpc = [] := by
    have := congrArg List.reverse h
    rw [rstrip] at this
    simpa using this
  exact List.dropWhile_eq_nil_iff.mp hdw c (List.mem_reverse.mpr hc)

theorem rstrip_ne_nil_of_mem {l : Line} {c : Char} (hc : c ∈ l) (hs : isSpc c = false) :
    rstrip l ≠ [] := by
  intro h
  rw [all_spc_of_rstrip_eq_nil h c hc] at hs
  exact Bool.noConfusion hs

theorem parseVar_none_of_head {key l : Line} (h : l.head? ≠ some '\x7b') :
    parseVar key l = none := by
  unfold parseVar
  split
  · exact absurd rfl h
  · rfl

theorem parseSrc_none_of_head {l : Line} (h : ∀ c, l.head? = some c → isSpc c = false) :
    parseSrc l = none := by
  cases l with
  | nil => rfl
  | cons c t =>
    unfold parseSrc
    simp only []
    rw [List.takeWhile_cons, h c rfl]
    simp

theorem fullmatchC_false_of_head {l : Line} {c : Char} (h : l.head? = some c)
    (hs : isSpc c = false) (hh : c ≠ '#') : fullmatchC l = false := by
  cases l with
  | nil => exact Option.noConfusion h
  | cons x t =>
    obtain rfl : x = c := by simpa using h
    unfold fullmatchC
    rw [List.dropWhile_cons, hs]
    simp only [Bool.false_eq_true, if_false]
    split
    · rename_i r2 heq
      exact absurd (List.cons.inj heq).1 hh
    · rfl

theorem fullmatchC_inv {s : Line} (h : fullmatchC s = true) :
    ∃ w1 w2 r3, s = w1 ++ ('#' :: (w2 ++ ('[' :: r3))) ∧
      (∀ c ∈ w1, isSpc c = true) ∧ (∀ c ∈ w2, isSpc c = true) ∧
      2 ≤ (rstrip r3).length ∧ (rstrip r3).getLast? = some ']' := by
  unfold fullmatchC at h
  split at h <;> try exact Bool.noConfusion h
  rename_i r2 heqA
  split at h <;> try exact Bool.noConfusion h
  rename_i r3 heqB
  simp only [] at h
  rw [Bool.and_eq_true] at h
  obtain ⟨hlen, hlast⟩ := h
  refine ⟨s.takeWhile isSpc, r2.takeWhile isSpc, r3, ?_,
    fun c hc => List.mem_takeWhile_imp hc, fun c hc => List.mem_takeWhile_imp hc,
    of_decide_eq_true hlen, eq_of_beq hlast⟩
  have hr2 : r2 = r2.takeWhile isSpc ++ ('[' :: r3) := by
    conv_lhs => rw [← List.takeWhile_append_dropWhile isSpc r2]
    rw [heqB]
  conv_lhs => rw [← List.takeWhile_append_dropWhile isSpc s]
  rw [heqA]
  conv_lhs => rw [hr2]

theorem fullmatchC_rstrip {s : Line} (h : fullmatchC s = true) :
    rstrip s ≠ [] ∧ (rstrip s).getLast? = some ']' ∧ fullmatchC (rstrip s) = true := by
  obtain ⟨w1, w2, r3, hdec, hw1, hw2, hlen, hlast⟩ := fullmatchC_inv h
  have hr3 : rstrip r3 ≠ [] := by
    intro hn
    rw [hn] at hlen
    exact absurd hlen (by decide)
  have hbr : rstrip ('[' :: r3) = '[' :: rstrip r3 := rstrip_cons_of_ne (by decide) r3
  have hw2r : rstrip (w2 ++ ('[' :: r3)) = w2 ++ ('[' :: rstrip r3) := by
    rw [rstrip_append w2 (by rw [hbr]; simp), hbr]
  have hhr : rstrip ('#' :: (w2 ++ ('[' :: r3))) = '#' :: (w2 ++ ('[' :: rstrip r3)) := by
    rw [rstrip_cons_of_ne (by decide), hw2r]
  have hsr : rstrip s = w1 ++ ('#' :: (w2 ++ ('[' :: rstrip r3))) := by
    rw [hdec, rstrip_append w1 (by rw [hhr]; simp), hhr]
  refine ⟨by rw [hsr]; simp, ?_, ?_⟩
  · rw [hsr, getLast?_append_of_ne_nil _ (by simp),
      show ('#' :: (w2 ++ ('[' :: rstrip r3))) = ['#'] ++ (w2 ++ ('[' :: rstrip r3)) from rfl,
      getLast?_append_of_ne_nil _ (by simp),
      getLast?_append_of_ne_nil _ (by simp),
      show ('[' :: rstrip r3) = ['['] ++ rstrip r3 from rfl,
      getLast?_append_of_ne_nil _ hr3]
    exact hlast
  · rw [hsr]
    unfold fullmatchC
    rw [dropWhile_append_of_all hw1, List.dropWhile_cons]
    simp only [show isSpc '#' = false from by decide, Bool.false_eq_true, if_false]
    rw [dropWhile_append_of_all hw2, List.dropWhile_cons]
    simp only [show isSpc '[' = false from by decide, Bool.false_eq_true, if_false]
    simp only [rstrip_idem]
    rw [decide_eq_true hlen, beq_iff_eq.mpr hlast]
    rfl

theorem findC_eq_none {l : Line} (h : ∀ s, s <:+ l → s ≠ [] → fullmatchC s = false) :
    findC l = none := by
  induction l with
  | nil => rfl
  | cons c t ih =>
    unfold findC
    rw [h (c :: t) List.suffix_rfl (by simp)]
    simp only [Bool.false_eq_true, if_false]
    exact ih fun s hs hne => h s (hs.trans (List.suffix_cons c t)) hne

theorem findC_append_eq {x s2 : Line}
    (h : ∀ s, s <:+ x → s ≠ [] → fullmatchC (s ++ s2) = false) :
    findC (x ++ s2) = findC s2 := by
  induction x with
  | nil => rfl
  | cons c t ih =>
    have hc := h (c :: t) List.suffix_rfl (by simp)
    rw [List.cons_append] at hc
    have hrest := ih fun s hs hne => h s (hs.trans (List.suffix_cons c t)) hne
    calc findC ((c :: t) ++ s2) = findC (c :: (t ++ s2)) := by rw [List.cons_append]
      _ = findC (t ++ s2) := by
          show (if fullmatchC (c :: (t ++ s2)) = true then some (c :: (t ++ s2))
            else findC (t ++ s2)) = findC (t ++ s2)
          rw [hc]
          simp
      _ = findC s2 := hrest

theorem findC_self {s : Line} (hne : s ≠ []) (h : fullmatchC s = true) :
    findC s = some s := by
  cases s with
  | nil => exact absurd rfl hne
  | cons c t =>
    unfold findC
    rw [h]
    simp

theorem parseVar_mk {key w1 w2 w3 w4 v w5 r10 : Line}
    (hk : keyOK key)
    (h1 : ∀ c ∈ w1, isSpc c = true) (h2 : ∀ c ∈ w2, isSpc c = true) (h2n : w2 ≠ [])
    (h3 : ∀ c ∈ w3, isSpc c = true) (h4 : ∀ c ∈ w4, isSpc c = true)
    (hv : v ≠ []) (hvq : '\x27' ∉ v)
    (h5 : ∀ c ∈ w5, isSpc c = true) (h10 : ∀ c ∈ r10, isSpc c = true) :
    parseVar key
      (('\x7b' :: '%' :: (w1 ++ chars "set" ++ w2 ++ key ++ w3 ++ '=' :: w4)) ++
        ('\x27' :: v) ++ ('\x27' :: (w5 ++ '%' :: '\x7d' :: r10))) =
      some ⟨'\x7b' :: '%' :: (w1 ++ chars "set" ++ w2 ++ key ++ w3 ++ '=' :: w4), v,
        w5 ++ '%' :: '\x7d' :: r10⟩ := by
  obtain ⟨hkne, hkchars⟩ := hk
  cases key with
  | nil => exact absurd rfl hkne
  | cons k0 kr =>
  have hk0 : isSpc k0 = false := keyChar_not_spc (hkchars k0 (List.mem_cons_self _ _))
  have hv' : ∀ c ∈ v, (c != '\x27') = true := fun c hc => by
    simp only [bne_iff_ne, ne_eq]
    exact fun he => hvq (he ▸ hc)
  have hw2e : w2.isEmpty = false :=
    Bool.eq_false_iff.mpr fun hh => h2n (List.isEmpty_iff.mp hh)
  have hve : v.isEmpty = false :=
    Bool.eq_false_iff.mpr fun hh => hv (List.isEmpty_iff.mp hh)
  have hL : (('\x7b' :: '%' :: (w1 ++ chars "set" ++ w2 ++ (k0 :: kr) ++ w3 ++ '=' :: w4)) ++
      ('\x27' :: v) ++ ('\x27' :: (w5 ++ '%' :: '\x7d' :: r10))) =
      '\x7b' :: '%' :: (w1 ++ ('s' :: 'e' :: 't' :: (w2 ++ (k0 :: (kr ++ (w3 ++ ('=' ::
        (w4 ++ ('\x27' :: (v ++ ('\x27' :: (w5 ++ ('%' :: '\x7d' :: r10))))))))))))) := by
    simp [show chars "set" = ['s', 'e', 't'] from rfl, List.append_assoc]
  rw [hL]
  unfold parseVar
  have tw1 : ∀ X : Line, (w1 ++ ('s' :: X)).takeWhile isSpc = w1 := fun X => by
    rw [takeWhile_append_of_all h1, List.takeWhile_cons]
    simp [show isSpc 's' = false from by decide]
  have dw1 : ∀ X : Line, (w1 ++ ('s' :: X)).dropWhile isSpc = 's' :: X := fun X => by
    rw [dropWhile_append_of_all h1, List.dropWhile_cons]
    simp [show isSpc 's' = false from by decide]
  have hpset : ∀ X : Line, (chars "set").isPrefixOf ('s' :: 'e' :: 't' :: X) = true :=
    fun X => List.isPrefixOf_iff_prefix.mpr ⟨X, rfl⟩
  have hdrop3 : ∀ X : Line, List.drop 3 ('s' :: 'e' :: 't' :: X) = X := fun X => rfl
  have tw2 : ∀ X : Line, (w2 ++ (k0 :: X)).takeWhile isSpc = w2 := fun X => by
    rw [takeWhile_append_of_all h2, List.takeWhile_cons, hk0]
    simp
  have dw2 : ∀ X : Line, (w2 ++ (k0 :: X)).dropWhile isSpc = k0 :: X := fun X => by
    rw [dropWhile_append_of_all h2, List.dropWhile_cons, hk0]
    simp
  have hpkey : ∀ X : Line, (k0 :: kr).isPrefixOf (k0 :: (kr ++ X)) = true :=
    fun X => List.isPrefixOf_iff_prefix.mpr ⟨X, by simp⟩
  have hdropkey : ∀ X : Line, List.drop (k0 :: kr).length (k0 :: (kr ++ X)) = X :=
    fun X => by simpa using List.drop_left (k0 :: kr) X
  have tw3 : ∀ X : Line, (w3 ++ ('=' :: X)).takeWhile isSpc = w3 := fun X => by
    rw [takeWhile_append_of_all h3, List.takeWhile_cons]
    simp [show isSpc '=' = false from by decide]
  have dw3 : ∀ X : Line, (w3 ++ ('=' :: X)).dropWhile isSpc = '=' :: X := fun X => by
    rw [dropWhile_append_of_all h3, List.dropWhile_cons]
    simp [show isSpc '=' = false from by decide]
  have tw4 : ∀ X : Line, (w4 ++ ('\x27' :: X)).takeWhile isSpc = w4 := fun X => by
    rw [takeWhile_append_of_all h4, List.takeWhile_cons]
    simp [show isSpc '\x27' = false from by decide]
  have dw4 : ∀ X : Line, (w4 ++ ('\x27' :: X)).dropWhile isSpc = '\x27' :: X := fun X => by
    rw [dropWhile_append_of_all h4, List.dropWhile_cons]
    simp [show isSpc '\x27' = false from by decide]
  have tv : ∀ X : Line, (v ++ ('\x27' :: X)).takeWhile (fun c => c != '\x27') = v :=
    fun X => by
      rw [takeWhile_append_of_all hv', List.takeWhile_cons]
      simp
  have dv : ∀ X : Line, (v ++ ('\x27' :: X)).dropWhile (fun c => c != '\x27') =
      '\x27' :: X := fun X => by
    rw [dropWhile_append_of_all hv', List.dropWhile_cons]
    simp
  have tw5 : ∀ X : Line, (w5 ++ ('%' :: X)).takeWhile isSpc = w5 := fun X => by
    rw [takeWhile_append_of_all h5, List.takeWhile_cons]
    simp [show isSpc '%' = false from by decide]
  have dw5 : ∀ X : Line, (w5 ++ ('%' :: X)).dropWhile isSpc = '%' :: X := fun X => by
    rw [dropWhile_append_of_all h5, List.dropWhile_cons]
    simp [show isSpc '%' = false from by decide]
  have hall : r10.all isSpc = true := List.all_eq_true.mpr h10
  simp only [tw1, dw1, hpset, hdrop3, hw2e, tw2, dw2, hpkey, hdropkey, tw3, dw3, tw4, dw4,
    hve, tv, dv, tw5, dw5, hall, if_true, Bool.false_eq_true, if_false]

theorem parseVar_prefix_facts {key l : Line} {p : VarParse} (h : parseVar key l = some p) :
    ∃ r1, l = '\x7b' :: '%' :: r1 ∧
      key.isPrefixOf (((r1.dropWhile isSpc).drop 3).dropWhile isSpc) = true ∧
      ∃ r6, ((((r1.dropWhile isSpc).drop 3).dropWhile isSpc).drop key.length).dropWhile isSpc
          = '=' :: r6 := by
  unfold parseVar at h
  split at h <;> try exact Option.noConfusion h
  rename_i r1
  simp only [] at h
  split at h <;> try exact Option.noConfusion h
  rename_i hset
  split at h <;> try exact Option.noConfusion h
  rename_i hw2
  split at h <;> try exact Option.noConfusion h
  rename_i hkey
  split at h <;> try exact Option.noConfusion h
  rename_i r6 heq6
  exact ⟨r1, rfl, hkey, r6, heq6⟩

theorem parseVar_unique {k k2 l : Line} {p : VarParse}
    (hk : keyOK k) (hk2 : keyOK k2) (hne : k2 ≠ k)
    (h : parseVar k l = some p) : parseVar k2 l = none := by
  cases hq : parseVar k2 l with
  | none => rfl
  | some q =>
    exfalso
    obtain ⟨r1, rfl, hkpre, r6, heq6⟩ := parseVar_prefix_facts h
    obtain ⟨r1x, he', hkpre2, r6x, heq6x⟩ := parseVar_prefix_facts hq
    obtain rfl : r1 = r1x := by simpa using he'
    have hp1 : k <+: ((r1.dropWhile isSpc).drop 3).dropWhile isSpc :=
      List.isPrefixOf_iff_prefix.mp hkpre
    have hp2 : k2 <+: ((r1.dropWhile isSpc).drop 3).dropWhile isSpc :=
      List.isPrefixOf_iff_prefix.mp hkpre2
    rcases List.prefix_or_prefix_of_prefix hp1 hp2 with hkk | hkk
    · obtain ⟨e, rfl⟩ := hkk
      obtain ⟨t, ht⟩ := hp1
      have hdk : (((r1.dropWhile isSpc).drop 3).dropWhile isSpc).drop k.length = t := by
        rw [← ht]
        exact List.drop_left _ _
      rw [hdk] at heq6
      have het : e <+: t := by
        have hke : k ++ e <+: k ++ t := by rw [ht]; exact hp2
        exact (List.prefix_append_right_inj k).mp hke
      obtain ⟨t2, ht2⟩ := het
      cases e with
      | nil => exact hne (by simp)
      | cons e0 er =>
        have he0 : keyChar e0 = true :=
          hk2.2 e0 (List.mem_append_right k (List.mem_cons_self e0 er))
        have he0s : isSpc e0 = false := keyChar_not_spc he0
        rw [← ht2, List.cons_append, List.dropWhile_cons, he0s] at heq6
        simp only [Bool.false_eq_true, if_false] at heq6
        obtain ⟨he, -⟩ := List.cons.inj heq6
        exact absurd he0 (by rw [he]; decide)
    · obtain ⟨e, rfl⟩ := hkk
      obtain ⟨t, ht⟩ := hp2
      have hdk : (((r1.dropWhile isSpc).drop 3).dropWhile isSpc).drop k2.length = t := by
        rw [← ht]
        exact List.drop_left _ _
      rw [hdk] at heq6x
      have het : e <+: t := by
        have hke : k2 ++ e <+: k2 ++ t := by rw [ht]; exact hp1
        exact (List.prefix_append_right_inj k2).mp hke
      obtain ⟨t2, ht2⟩ := het
      cases e with
      | nil => exact hne (by simp)
      | cons e0 er =>
        have he0 : keyChar e0 = true :=
          hk.2 e0 (List.mem_append_right k2 (List.mem_cons_self e0 er))
        have he0s : isSpc e0 = false := keyChar_not_spc he0
        rw [← ht2, List.cons_append, List.dropWhile_cons, he0s] at heq6x
        simp only [Bool.false_eq_true, if_false] at heq6x
        obtain ⟨he, -⟩ := List.cons.inj heq6x
        exact absurd he0 (by rw [he]; decide)

theorem takeWhile_stop {p : Char → Bool} {c : Char} (hc : p c = false) (t : Line) :
    (c :: t).takeWhile p = [] := by
  rw [List.takeWhile_cons, hc]
  simp

theorem dropWhile_stop {p : Char → Bool} {c : Char} (hc : p c = false) (t : Line) :
    (c :: t).dropWhile p = c :: t := by
  rw [List.dropWhile_cons, hc]
  simp

theorem rstrip_append_ws {a s : Line} (hs : ∀ c ∈ s, isSpc c = true) :
    rstrip (a ++ s) = rstrip a := by
  unfold rstrip
  rw [List.reverse_append,
    dropWhile_append_of_all (fun c hc => hs c (List.mem_reverse.mp hc))]

theorem parseSrc_append_ws {a w rest s : Line} (h : parseSrc a = some (w, rest))
    (_hs : ∀ c ∈ s, isSpc c = true) : parseSrc (a ++ s) = some (w, rest ++ s) := by
  obtain ⟨hw, hwne, hdec | hdec⟩ := parseSrc_some h
  · subst hdec
    unfold parseSrc
    have hz : ((chars "url:" ++ rest) ++ s).takeWhile isSpc = ([] : Line) :=
      takeWhile_stop (by decide) ((chars "rl:" ++ rest) ++ s)
    have hz2 : ((chars "url:" ++ rest) ++ s).dropWhile isSpc =
        (chars "url:" ++ rest) ++ s :=
      dropWhile_stop (by decide) ((chars "rl:" ++ rest) ++ s)
    have htw : ((w ++ (chars "url:" ++ rest)) ++ s).takeWhile isSpc = w := by
      rw [List.append_assoc, takeWhile_append_of_all hw, hz, List.append_nil]
    have hdw : ((w ++ (chars "url:" ++ rest)) ++ s).dropWhile isSpc =
        (chars "url:" ++ rest) ++ s := by
      rw [List.append_assoc, dropWhile_append_of_all hw, hz2]
    have hemp : w.isEmpty = false := by
      cases w with
      | nil => exact absurd rfl hwne
      | cons c t => rfl
    have hpre : (chars "url:").isPrefixOf ((chars "url:" ++ rest) ++ s) = true :=
      List.isPrefixOf_iff_prefix.mpr ⟨rest ++ s, by simp⟩
    have hdrop : ((chars "url:" ++ rest) ++ s).drop 4 = rest ++ s := by
      rw [List.append_assoc]
      exact List.drop_left (chars "url:") (rest ++ s)
    simp only [htw, hdw, hemp, hpre, hdrop, Bool.false_eq_true, if_false, if_true]
  · subst hdec
    unfold parseSrc
    have hz : ((chars "path:" ++ rest) ++ s).takeWhile isSpc = ([] : Line) :=
      takeWhile_stop (by decide) ((chars "ath:" ++ rest) ++ s)
    have hz2 : ((chars "path:" ++ rest) ++ s).dropWhile isSpc =
        (chars "path:" ++ rest) ++ s :=
      dropWhile_stop (by decide) ((chars "ath:" ++ rest) ++ s)
    have htw : ((w ++ (chars "path:" ++ rest)) ++ s).takeWhile isSpc = w := by
      rw [List.append_assoc, takeWhile_append_of_all hw, hz, List.append_nil]
    have hdw : ((w ++ (chars "path:" ++ rest)) ++ s).dropWhile isSpc =
        (chars "path:" ++ rest) ++ s := by
      rw [List.append_assoc, dropWhile_append_of_all hw, hz2]
    have hemp : w.isEmpty = false := by
      cases w with
      | nil => exact absurd rfl hwne
      | cons c t => rfl
    have hpu : (chars "url:").isPrefixOf ((chars "path:" ++ rest) ++ s) = false := rfl
    have hpp : (chars "path:").isPrefixOf ((chars "path:" ++ rest) ++ s) = true :=
      List.isPrefixOf_iff_prefix.mpr ⟨rest ++ s, by simp⟩
    have hdrop : ((chars "path:" ++ rest) ++ s).drop 5 = rest ++ s := by
      rw [List.append_assoc]
      exact List.drop_left (chars "path:") (rest ++ s)
    simp only [htw, hdw, hemp, hpu, hpp, hdrop, Bool.false_eq_true, if_false, if_true]

theorem parseSrc_rstrip_none {l : Line} (h : parseSrc l = none) :
    parseSrc (rstrip l) = none := by
  cases hq : parseSrc (rstrip l) with
  | none => rfl
  | some wr =>
    exfalso
    obtain ⟨w, rest⟩ := wr
    obtain ⟨hdec, hws⟩ := rstrip_decomp l
    have h2 := parseSrc_append_ws hq hws
    rw [← hdec, h] at h2
    exact Option.noConfusion h2

theorem parseVar_append_ws {k l s : Line} {p : VarParse} (hk : keyOK k)
    (h : parseVar k l = some p) (hs : ∀ c ∈ s, isSpc c = true) :
    parseVar k (l ++ s) = some ⟨p.g1, p.val, p.g2 ++ s⟩ := by
  obtain ⟨hvne, hvq, hdec, ⟨w1, w2, w3, w4, h1, h2, h2n, h3, h4, hg1⟩,
    ⟨w5, r10, h5, h10, hg2⟩⟩ := parseVar_some h
  have h10s : ∀ c ∈ r10 ++ s, isSpc c = true := by
    intro c hc
    rcases List.mem_append.mp hc with hc | hc
    · exact h10 c hc
    · exact hs c hc
  have hmk := parseVar_mk hk h1 h2 h2n h3 h4 hvne hvq h5 h10s
  have harg : l ++ s = ('\x7b' :: '%' :: (w1 ++ chars "set" ++ w2 ++ k ++ w3 ++ '=' :: w4)) ++
      ('\x27' :: p.val) ++ ('\x27' :: (w5 ++ '%' :: '\x7d' :: (r10 ++ s))) := by
    rw [hdec, hg1, hg2]
    simp [List.append_assoc]
  rw [harg, hmk, hg1, hg2]
  simp [List.append_assoc]

theorem parseVar_rstrip_none {k l : Line} (hk : keyOK k) (h : parseVar k l = none) :
    parseVar k (rstrip l) = none := by
  cases hq : parseVar k (rstrip l) with
  | none => rfl
  | some q =>
    exfalso
    obtain ⟨hdec, hws⟩ := rstrip_decomp l
    have h2 := parseVar_append_ws hk hq hws
    rw [← hdec, h] at h2
    exact Option.noConfusion h2

theorem fullmatchC_false_of_ne {l : Line} {c : Char} {t : Line}
    (h : l.dropWhile isSpc = c :: t) (hc : c ≠ '#') : fullmatchC l = false := by
  unfold fullmatchC
  rw [h]
  split
  · rename_i r2 heq
    exact absurd (List.cons.inj heq).1 hc
  · rfl

theorem foldVar_id {ps : List (Line × Line)} {cur : Line}
    (h : ∀ kv ∈ ps, kv.1 ≠ chars "url" → parseVar kv.1 cur = none) :
    ps.foldl (fun cur kv => if kv.1 = chars "url" then cur else varSub kv.1 kv.2 cur) cur
      = cur := by
  induction ps with
  | nil => rfl
  | cons kv ps ih =>
    rw [List.foldl_cons]
    by_cases hu : kv.1 = chars "url"
    · rw [if_pos hu]
      exact ih fun kv2 hm => h kv2 (List.mem_cons_of_mem _ hm)
    · rw [if_neg hu]
      have hv : varSub kv.1 kv.2 cur = cur := by
        unfold varSub
        rw [h kv (List.mem_cons_self _ _) hu]
      rw [hv]
      exact ih fun kv2 hm => h kv2 (List.mem_cons_of_mem _ hm)

theorem foldVar_once : ∀ (ps : List (Line × Line)) (cur : Line) (kv : Line × Line)
    (p : VarParse), (ps.map Prod.fst).Nodup →
    (∀ q ∈ ps, q.1 ≠ chars "url" → keyOK q.1 ∧ q.2 ≠ [] ∧ '\x27' ∉ q.2) →
    kv ∈ ps → kv.1 ≠ chars "url" → parseVar kv.1 cur = some p →
    ps.foldl (fun cur kv => if kv.1 = chars "url" then cur else varSub kv.1 kv.2 cur) cur
      = p.g1 ++ ('\x27' :: kv.2) ++ ('\x27' :: p.g2) := by
  intro ps
  induction ps with
  | nil => intro cur kv p _ _ hm _ _; cases hm
  | cons q tail ih =>
    intro cur kv p hnd hkeys hm hu h
    rw [List.map_cons, List.nodup_cons] at hnd
    obtain ⟨hq1, hnd2⟩ := hnd
    rw [List.foldl_cons]
    rcases List.mem_cons.mp hm with rfl | htail
    · rw [if_neg hu]
      have hn1 : varSub kv.1 kv.2 cur = p.g1 ++ ('\x27' :: kv.2) ++ ('\x27' :: p.g2) := by
        unfold varSub
        rw [h]
      rw [hn1]
      obtain ⟨hvne, hvq, hdec, ⟨w1, w2, w3, w4, h1, h2, h2n, h3, h4, hg1⟩,
        ⟨w5, r10, h5, h10, hg2⟩⟩ := parseVar_some h
      obtain ⟨hkOK, hv2ne, hv2q⟩ := hkeys kv (List.mem_cons_self _ _) hu
      have hsome : parseVar kv.1 (p.g1 ++ ('\x27' :: kv.2) ++ ('\x27' :: p.g2))
          = some ⟨p.g1, kv.2, p.g2⟩ := by
        rw [hg1, hg2]
        exact parseVar_mk hkOK h1 h2 h2n h3 h4 hv2ne hv2q h5 h10
      apply foldVar_id
      intro q2 hq2 hq2u
      obtain ⟨hk2OK, -, -⟩ := hkeys q2 (List.mem_cons_of_mem _ hq2) hq2u
      have hmem2 : q2.1 ∈ List.map Prod.fst tail := List.mem_map_of_mem Prod.fst hq2
      have hne2 : q2.1 ≠ kv.1 := by
        intro he
        rw [he] at hmem2
        exact hq1 hmem2
      exact parseVar_unique hkOK hk2OK hne2 hsome
    · have hmem2 : kv.1 ∈ List.map Prod.fst tail := List.mem_map_of_mem Prod.fst htail
      have hq1ne : q.1 ≠ kv.1 := by
        intro he
        rw [he] at hq1
        exact hq1 hmem2
      by_cases hqu : q.1 = chars "url"
      · rw [if_pos hqu]
        exact ih cur kv p hnd2 (fun q2 hq2 => hkeys q2 (List.mem_cons_of_mem _ hq2)) htail hu h
      · rw [if_neg hqu]
        obtain ⟨hkvOK, -, -⟩ := hkeys kv (List.mem_cons_of_mem _ htail) hu
        obtain ⟨hqOK, -, -⟩ := hkeys q (List.mem_cons_self _ _) hqu
        have hnone : parseVar q.1 cur = none := parseVar_unique hkvOK hqOK hq1ne h
        have hid : varSub q.1 q.2 cur = cur := by
          unfold varSub
          rw [hnone]
        rw [hid]
        exact ih cur kv p hnd2 (fun q2 hq2 => hkeys q2 (List.mem_cons_of_mem _ hq2)) htail hu h

theorem head?_rstrip {l : Line} (h : rstrip l ≠ []) : (rstrip l).head? = l.head? := by
  obtain ⟨hdec, -⟩ := rstrip_decomp l
  conv_rhs => rw [hdec]
  rw [head?_append_of_ne_nil h]

theorem parseSrc_w_kw {w X : Line} {isdir : Bool} (hw : ∀ c ∈ w, isSpc c = true)
    (hwne : w ≠ []) :
    parseSrc (w ++ ((if isdir then chars "path: " else chars "url: ") ++ X))
      = some (w, ' ' :: X) := by
  have hemp : w.isEmpty = false := by
    cases w with
    | nil => exact absurd rfl hwne
    | cons c t => rfl
  cases isdir
  · show parseSrc (w ++ (chars "url: " ++ X)) = some (w, ' ' :: X)
    unfold parseSrc
    have hz : (chars "url: " ++ X).takeWhile isSpc = ([] : Line) :=
      takeWhile_stop (by decide) (chars "rl: " ++ X)
    have hz2 : (chars "url: " ++ X).dropWhile isSpc = chars "url: " ++ X :=
      dropWhile_stop (by decide) (chars "rl: " ++ X)
    have htw : (w ++ (chars "url: " ++ X)).takeWhile isSpc = w := by
      rw [takeWhile_append_of_all hw, hz, List.append_nil]
    have hdw : (w ++ (chars "url: " ++ X)).dropWhile isSpc = chars "url: " ++ X := by
      rw [dropWhile_append_of_all hw, hz2]
    have hpre : (chars "url:").isPrefixOf (chars "url: " ++ X) = true :=
      List.isPrefixOf_iff_prefix.mpr ⟨' ' :: X, rfl⟩
    have hdrop : (chars "url: " ++ X).drop 4 = ' ' :: X := rfl
    simp only [htw, hdw, hemp, hpre, hdrop, Bool.false_eq_true, if_false, if_true]
  · show parseSrc (w ++ (chars "path: " ++ X)) = some (w, ' ' :: X)
    unfold parseSrc
    have hz : (chars "path: " ++ X).takeWhile isSpc = ([] : Line) :=
      takeWhile_stop (by decide) (chars "ath: " ++ X)
    have hz2 : (chars "path: " ++ X).dropWhile isSpc = chars "path: " ++ X :=
      dropWhile_stop (by decide) (chars "ath: " ++ X)
    have htw : (w ++ (chars "path: " ++ X)).takeWhile isSpc = w := by
      rw [takeWhile_append_of_all hw, hz, List.append_nil]
    have hdw : (w ++ (chars "path: " ++ X)).dropWhile isSpc = chars "path: " ++ X := by
      rw [dropWhile_append_of_all hw, hz2]
    have hpu : (chars "url:").isPrefixOf (chars "path: " ++ X) = false := rfl
    have hpp : (chars "path:").isPrefixOf (chars "path: " ++ X) = true :=
      List.isPrefixOf_iff_prefix.mpr ⟨' ' :: X, rfl⟩
    have hdrop : (chars "path: " ++ X).drop 5 = ' ' :: X := rfl
    simp only [htw, hdw, hemp, hpu, hpp, hdrop, Bool.false_eq_true, if_false, if_true]

theorem exists_last_nonspc {u : Line} (hune : u ≠ [])
    (huc : ∀ c ∈ u, isSpc c = false) : ∃ c, u.getLast? = some c ∧ isSpc c = false := by
  obtain ⟨c, t, hr⟩ : ∃ c t, u.reverse = c :: t := by
    cases hr : u.reverse with
    | nil =>
      rw [List.reverse_eq_nil_iff] at hr
      exact absurd hr hune
    | cons c t => exact ⟨c, t, rfl⟩
  refine ⟨c, ?_, ?_⟩
  · rw [List.getLast?_eq_head?_reverse, hr]
    rfl
  · exact huc c (List.mem_reverse.mp (hr ▸ List.mem_cons_self c t))

theorem srcSub_fix {u w rest l : Line} {isdir : Bool}
    (hune : u ≠ []) (huc : ∀ c ∈ u, isSpc c = false ∧ c ≠ '#')
    (hsrc : parseSrc l = some (w, rest)) :
    srcSub u isdir (rstrip (srcSub u isdir l)) = rstrip (srcSub u isdir l) := by
  obtain ⟨hw, hwne, -⟩ := parseSrc_some hsrc
  obtain ⟨u0, ut, rfl⟩ : ∃ u0 ut, u = u0 :: ut := by
    cases u with
    | nil => exact absurd rfl hune
    | cons a b => exact ⟨a, b, rfl⟩
  have hu0 : isSpc u0 = false := (huc u0 (List.mem_cons_self _ _)).1
  have hu0h : u0 ≠ '#' := (huc u0 (List.mem_cons_self _ _)).2
  have hsrcSub : srcSub (u0 :: ut) isdir l =
      ((w ++ (if isdir then chars "path: " else chars "url: ")) ++ (u0 :: ut)) ++
        (findC rest).getD [] := by
    unfold srcSub
    rw [hsrc]
  cases hf : findC rest with
  | none =>
    rw [hsrcSub, hf]
    simp only [Option.getD_none, List.append_nil]
    have hul := exists_last_nonspc (by simp : (u0 :: ut : Line) ≠ [])
      (fun c hc => (huc c hc).1)
    obtain ⟨ul, hull, huls⟩ := hul
    have hself : rstrip ((w ++ (if isdir then chars "path: " else chars "url: "))
        ++ (u0 :: ut)) = (w ++ (if isdir then chars "path: " else chars "url: "))
        ++ (u0 :: ut) :=
      rstrip_eq_self_of_last (by rw [getLast?_append_of_ne_nil _ (by simp)]; exact hull) huls
    rw [hself, List.append_assoc]
    unfold srcSub
    rw [parseSrc_w_kw hw hwne]
    dsimp only
    have hfc : findC (' ' :: (u0 :: ut)) = none := by
      apply findC_eq_none
      intro t hsuf hsne
      rcases List.suffix_cons_iff.mp hsuf with rfl | hsuf2
      · refine fullmatchC_false_of_ne (t := ut) ?_ hu0h
        rw [List.dropWhile_cons, show isSpc ' ' = true from rfl]
        simp only [if_true]
        exact dropWhile_stop hu0 ut
      · obtain ⟨t0, tt, rfl⟩ : ∃ t0 tt, t = t0 :: tt := by
          cases t with
          | nil => exact absurd rfl hsne
          | cons a b => exact ⟨a, b, rfl⟩
        have ht0 : t0 ∈ u0 :: ut := hsuf2.subset (List.mem_cons_self _ _)
        exact fullmatchC_false_of_head rfl (huc t0 ht0).1 (huc t0 ht0).2
    rw [hfc]
    simp only [Option.getD_none, List.append_nil]
    simp [List.append_assoc]
  | some m =>
    obtain ⟨hmsuf, hmfull⟩ := findC_some hf
    obtain ⟨hmr_ne, hmr_last, hmr_full⟩ := fullmatchC_rstrip hmfull
    rw [hsrcSub, hf]
    simp only [Option.getD_some]
    rw [rstrip_append _ hmr_ne]
    rw [show ((w ++ (if isdir then chars "path: " else chars "url: ")) ++ (u0 :: ut))
        ++ rstrip m = w ++ ((if isdir then chars "path: " else chars "url: ") ++
        ((u0 :: ut) ++ rstrip m)) from by simp [List.append_assoc]]
    unfold srcSub
    rw [parseSrc_w_kw hw hwne]
    dsimp only
    have hfc : findC (' ' :: ((u0 :: ut) ++ rstrip m)) = some (rstrip m) := by
      have hsplit : (' ' :: ((u0 :: ut) ++ rstrip m)) = (' ' :: u0 :: ut) ++ rstrip m := by
        simp
      rw [hsplit]
      have hstep : findC ((' ' :: u0 :: ut) ++ rstrip m) = findC (rstrip m) := by
        apply findC_append_eq
        intro t hsuf hsne
        rcases List.suffix_cons_iff.mp hsuf with rfl | hsuf2
        · refine fullmatchC_false_of_ne (t := ut ++ rstrip m) ?_ hu0h
          rw [List.cons_append, List.cons_append, List.dropWhile_cons,
            show isSpc ' ' = true from rfl]
          simp only [if_true]
          exact dropWhile_stop hu0 (ut ++ rstrip m)
        · obtain ⟨t0, tt, rfl⟩ : ∃ t0 tt, t = t0 :: tt := by
            cases t with
            | nil => exact absurd rfl hsne
            | cons a b => exact ⟨a, b, rfl⟩
          have ht0 : t0 ∈ u0 :: ut := hsuf2.subset (List.mem_cons_self _ _)
          exact fullmatchC_false_of_head rfl (huc t0 ht0).1 (huc t0 ht0).2
      rw [hstep, findC_self hmr_ne hmr_full]
    rw [hfc]
    simp only [Option.getD_some]
    simp [List.append_assoc]

theorem isSub_false_of_not_sub {p a : Line} (h : ¬ p <:+: a) : isSub p a = false := by
  cases hq : isSub p a with
  | false => rfl
  | true => exact absurd ((isSub_iff _ _).mp hq) h

theorem isSub_false_of_prefix {p a b : Line} (hp : a <+: b) (h : isSub p b = false) :
    isSub p a = false := by
  cases hq : isSub p a with
  | false => rfl
  | true =>
    exfalso
    have hin : p <:+: b := ((isSub_iff p a).mp hq).trans hp.isInfix
    rw [(isSub_iff p b).mpr hin] at h
    exact Bool.noConfusion h

theorem head?_appends {a : Line} (ha : a ≠ []) (b c d : Line) :
    (((a ++ b) ++ c) ++ d).head? = a.head? := by
  have h1 : a ++ b ≠ [] := fun hn => ha (List.append_eq_nil.mp hn).1
  have h2 : (a ++ b) ++ c ≠ [] := fun hn => h1 (List.append_eq_nil.mp hn).1
  rw [head?_append_of_ne_nil h2, head?_append_of_ne_nil h1, head?_append_of_ne_nil ha]

theorem bool_neg {b : Bool} (h : b = false) : ¬ b = true :=
  fun hb => Bool.noConfusion (h ▸ hb)

theorem lineStep_fix_gamma {u : Line} {isdir : Bool} {ps : List (Line × Line)} {l : Line}
    (hkeysK : ∀ q ∈ ps, q.1 ≠ chars "url" → keyOK q.1)
    (hshal : isSub (chars "sha256") l = false)
    (hsrcx : u.isEmpty = true ∨ parseSrc l = none)
    (hnone : ∀ q ∈ ps, q.1 ≠ chars "url" → parseVar q.1 l = none) :
    lineStep u isdir ps (rstrip l) = some (rstrip l) := by
  have hxsha : isSub (chars "sha256") (rstrip l) = false :=
    isSub_false_of_prefix (rstrip_pref l) hshal
  unfold lineStep
  rw [if_neg (by simp [hxsha] : ¬ isSub (chars "sha256") (rstrip l) = true)]
  simp only []
  have hnone2 : ∀ q ∈ ps, q.1 ≠ chars "url" → parseVar q.1 (rstrip l) = none :=
    fun q hq hqu => parseVar_rstrip_none (hkeysK q hq hqu) (hnone q hq hqu)
  have hl1 : (if u.isEmpty then rstrip l else srcSub u isdir (rstrip l)) = rstrip l := by
    cases hue : u.isEmpty with
    | true => rw [if_pos rfl]
    | false =>
      rw [if_neg (by simp)]
      rcases hsrcx with h9 | h9
      · rw [hue] at h9
        exact Bool.noConfusion h9
      · unfold srcSub
        rw [parseSrc_rstrip_none h9]
  rw [hl1, foldVar_id hnone2, rstrip_idem]

theorem lineStep_fix_beta {u : Line} {isdir : Bool} {ps : List (Line × Line)} {l : Line}
    {kv : Line × Line} {p : VarParse}
    (hnd : (ps.map Prod.fst).Nodup)
    (hkeys : ∀ q ∈ ps, q.1 ≠ chars "url" →
      keyOK q.1 ∧ q.2 ≠ [] ∧ '\x27' ∉ q.2 ∧ ¬ chars "sha256" <:+: q.2)
    (hshal : isSub (chars "sha256") l = false)
    (hkv : kv ∈ ps) (hkvu : kv.1 ≠ chars "url")
    (hp : parseVar kv.1 l = some p) :
    lineStep u isdir ps
        (rstrip (ps.foldl (fun cur kv => if kv.1 = chars "url" then cur
          else varSub kv.1 kv.2 cur) l))
      = some (rstrip (ps.foldl (fun cur kv => if kv.1 = chars "url" then cur
          else varSub kv.1 kv.2 cur) l)) := by
  have hkeys3 : ∀ q ∈ ps, q.1 ≠ chars "url" → keyOK q.1 ∧ q.2 ≠ [] ∧ '\x27' ∉ q.2 :=
    fun q hq hqu => ⟨(hkeys q hq hqu).1, (hkeys q hq hqu).2.1, (hkeys q hq hqu).2.2.1⟩
  have hfold := foldVar_once ps l kv p hnd hkeys3 hkv hkvu hp
  obtain ⟨hkOK, hv2ne, hv2q⟩ := hkeys3 kv hkv hkvu
  obtain ⟨-, -, -, ⟨w1, w2, w3, w4, h1, h2, h2n, h3, h4, hg1⟩,
    ⟨w5, r10, h5, h10, hg2⟩⟩ := parseVar_some hp
  rw [hfold]
  have hshape : p.g1 ++ ('\x27' :: kv.2) ++ ('\x27' :: p.g2)
      = ((p.g1 ++ ('\x27' :: kv.2)) ++ ('\x27' :: (w5 ++ ['%', '\x7d']))) ++ r10 := by
    rw [hg2]
    simp [List.append_assoc]
  have hconcat : (p.g1 ++ ('\x27' :: kv.2)) ++ ('\x27' :: (w5 ++ ['%', '\x7d']))
      = ((p.g1 ++ ('\x27' :: kv.2)) ++ ('\x27' :: (w5 ++ ['%']))) ++ ['\x7d'] := by
    simp [List.append_assoc]
  have hcore : rstrip (p.g1 ++ ('\x27' :: kv.2) ++ ('\x27' :: p.g2))
      = (p.g1 ++ ('\x27' :: kv.2)) ++ ('\x27' :: (w5 ++ ['%', '\x7d'])) := by
    rw [hshape, rstrip_append_ws h10]
    exact rstrip_eq_self_of_last (by rw [hconcat, List.getLast?_concat]) (by decide)
  rw [hcore]
  have hg1ne : p.g1 ≠ [] := by
    rw [hg1]
    simp
  have hheadx : ((p.g1 ++ ('\x27' :: kv.2)) ++ ('\x27' :: (w5 ++ ['%', '\x7d']))).head?
      = some '\x7b' := by
    rw [head?_append_of_ne_nil (fun hn => hg1ne (List.append_eq_nil.mp hn).1),
      head?_append_of_ne_nil hg1ne, hg1]
    rfl
  have hvsub : varSub kv.1 kv.2 l = p.g1 ++ ('\x27' :: kv.2) ++ ('\x27' :: p.g2) := by
    unfold varSub
    rw [hp]
  have hn1sha : ¬ chars "sha256" <:+: p.g1 ++ ('\x27' :: kv.2) ++ ('\x27' :: p.g2) := by
    rw [← hvsub]
    exact varSub_sha (fun hin => absurd ((isSub_iff _ _).mpr hin) (by simp [hshal]))
      (hkeys kv hkv hkvu).2.2.2
  have hcsha : isSub (chars "sha256")
      ((p.g1 ++ ('\x27' :: kv.2)) ++ ('\x27' :: (w5 ++ ['%', '\x7d']))) = false := by
    refine isSub_false_of_prefix ?_ (isSub_false_of_not_sub hn1sha)
    exact hcore ▸ rstrip_pref (p.g1 ++ ('\x27' :: kv.2) ++ ('\x27' :: p.g2))
  unfold lineStep
  rw [if_neg (bool_neg hcsha)]
  simp only []
  have hpsx : parseSrc ((p.g1 ++ ('\x27' :: kv.2)) ++ ('\x27' :: (w5 ++ ['%', '\x7d'])))
      = none := by
    apply parseSrc_none_of_head
    intro c hc
    rw [hheadx] at hc
    obtain rfl := Option.some.inj hc
    decide
  have hl1 : (if u.isEmpty
        then (p.g1 ++ ('\x27' :: kv.2)) ++ ('\x27' :: (w5 ++ ['%', '\x7d']))
        else srcSub u isdir
          ((p.g1 ++ ('\x27' :: kv.2)) ++ ('\x27' :: (w5 ++ ['%', '\x7d']))))
      = (p.g1 ++ ('\x27' :: kv.2)) ++ ('\x27' :: (w5 ++ ['%', '\x7d'])) := by
    cases hue : u.isEmpty with
    | true => rw [if_pos rfl]
    | false =>
      rw [if_neg (by simp)]
      unfold srcSub
      rw [hpsx]
  rw [hl1]
  have hp2 : parseVar kv.1 ((p.g1 ++ ('\x27' :: kv.2)) ++ ('\x27' :: (w5 ++ ['%', '\x7d'])))
      = some ⟨p.g1, kv.2, w5 ++ ['%', '\x7d']⟩ := by
    rw [hg1]
    exact parseVar_mk hkOK h1 h2 h2n h3 h4 hv2ne hv2q h5
      (fun c hc => absurd hc (List.not_mem_nil c))
  have hfold2 := foldVar_once ps
    ((p.g1 ++ ('\x27' :: kv.2)) ++ ('\x27' :: (w5 ++ ['%', '\x7d']))) kv
    ⟨p.g1, kv.2, w5 ++ ['%', '\x7d']⟩ hnd hkeys3 hkv hkvu hp2
  rw [hfold2]
  have hri : rstrip ((p.g1 ++ ('\x27' :: kv.2)) ++ ('\x27' :: (w5 ++ ['%', '\x7d'])))
      = (p.g1 ++ ('\x27' :: kv.2)) ++ ('\x27' :: (w5 ++ ['%', '\x7d'])) := by
    rw [← hcore, rstrip_idem]
  exact congrArg some hri

theorem lineStep_fix {u : Line} {isdir : Bool} {ps : List (Line × Line)} {l x : Line}
    (hu : u = [] ∨ (u ≠ [] ∧ (∀ c ∈ u, isSpc c = false ∧ c ≠ '#') ∧
      ¬ chars "sha256" <:+: u))
    (hnd : (ps.map Prod.fst).Nodup)
    (hkeys : ∀ q ∈ ps, q.1 ≠ chars "url" →
      keyOK q.1 ∧ q.2 ≠ [] ∧ '\x27' ∉ q.2 ∧ ¬ chars "sha256" <:+: q.2)
    (h : lineStep u isdir ps l = some x) :
    lineStep u isdir ps x = some x := by
  have hkeysK : ∀ q ∈ ps, q.1 ≠ chars "url" → keyOK q.1 :=
    fun q hq hqu => (hkeys q hq hqu).1
  unfold lineStep at h
  split at h
  · exact Option.noConfusion h
  rename_i hsha
  have hshal : isSub (chars "sha256") l = false := by
    cases hq : isSub (chars "sha256") l with
    | false => rfl
    | true => exact absurd hq hsha
  simp only [] at h
  have hx := Option.some.inj h
  rcases hu with rfl | ⟨hune, huc, hushai⟩
  · rw [show (if ([] : Line).isEmpty = true then l else srcSub [] isdir l) = l from rfl] at hx
    by_cases hfire : ∃ kv ∈ ps, kv.1 ≠ chars "url" ∧ ∃ p, parseVar kv.1 l = some p
    · obtain ⟨kv, hkv, hkvu, p, hp⟩ := hfire
      subst hx
      exact lineStep_fix_beta hnd hkeys hshal hkv hkvu hp
    · have hnone : ∀ q ∈ ps, q.1 ≠ chars "url" → parseVar q.1 l = none := by
        intro q hq hqu
        cases hpv : parseVar q.1 l with
        | none => rfl
        | some p => exact absurd ⟨q, hq, hqu, p, hpv⟩ hfire
      rw [foldVar_id hnone] at hx
      subst hx
      exact lineStep_fix_gamma hkeysK hshal (Or.inl rfl) hnone
  · have hue : u.isEmpty = false := by
      cases u with
      | nil => exact absurd rfl hune
      | cons a b => rfl
    rw [if_neg (bool_neg hue)] at hx
    cases hps0 : parseSrc l with
    | none =>
      have hss : srcSub u isdir l = l := by
        unfold srcSub
        rw [hps0]
      rw [hss] at hx
      by_cases hfire : ∃ kv ∈ ps, kv.1 ≠ chars "url" ∧ ∃ p, parseVar kv.1 l = some p
      · obtain ⟨kv, hkv, hkvu, p, hp⟩ := hfire
        subst hx
        exact lineStep_fix_beta hnd hkeys hshal hkv hkvu hp
      · have hnone : ∀ q ∈ ps, q.1 ≠ chars "url" → parseVar q.1 l = none := by
          intro q hq hqu
          cases hpv : parseVar q.1 l with
          | none => rfl
          | some p => exact absurd ⟨q, hq, hqu, p, hpv⟩ hfire
        rw [foldVar_id hnone] at hx
        subst hx
        exact lineStep_fix_gamma hkeysK hshal (Or.inr hps0) hnone
    | some wr =>
      obtain ⟨w, rest⟩ := wr
      obtain ⟨hw, hwne, -⟩ := parseSrc_some hps0
      obtain ⟨u0, ut, huu⟩ : ∃ u0 ut, u = u0 :: ut := by
        cases u with
        | nil => exact absurd rfl hune
        | cons a b => exact ⟨a, b, rfl⟩
      have hu0mem : u0 ∈ u := by
        rw [huu]
        exact List.mem_cons_self _ _
      have hu0 : isSpc u0 = false := (huc u0 hu0mem).1
      obtain ⟨w0, wt, hww⟩ : ∃ w0 wt, w = w0 :: wt := by
        cases w with
        | nil => exact absurd rfl hwne
        | cons a b => exact ⟨a, b, rfl⟩
      have hw0s : isSpc w0 = true := hw w0 (by rw [hww]; exact List.mem_cons_self _ _)
      have hsrcSub : srcSub u isdir l =
          ((w ++ (if isdir then chars "path: " else chars "url: ")) ++ u) ++
            (findC rest).getD [] := by
        unfold srcSub
        rw [hps0]
      have hw0' : (srcSub u isdir l).head? = some w0 := by
        rw [hsrcSub, head?_appends (by rw [hww]; simp), hww]
        rfl
      have hnotbrace : ∀ X : Line, X.head? = some w0 → X.head? ≠ some '\x7b' := by
        intro X hX he
        rw [hX] at he
        have h9 := Option.some.inj he
        rw [h9] at hw0s
        exact absurd hw0s (by decide)
      have hfid : ∀ q ∈ ps, q.1 ≠ chars "url" → parseVar q.1 (srcSub u isdir l) = none :=
        fun q hq hqu => parseVar_none_of_head (hnotbrace _ hw0')
      rw [foldVar_id hfid] at hx
      subst hx
      have hlsha : ¬ chars "sha256" <:+: l :=
        fun hin => absurd ((isSub_iff _ _).mpr hin) (bool_neg hshal)
      have hssha : isSub (chars "sha256") (rstrip (srcSub u isdir l)) = false :=
        isSub_false_of_prefix (rstrip_pref _)
          (isSub_false_of_not_sub (srcSub_sha hlsha hushai))
      unfold lineStep
      rw [if_neg (bool_neg hssha)]
      simp only []
      have hrne : rstrip (srcSub u isdir l) ≠ [] := by
        refine rstrip_ne_nil_of_mem (?_ : u0 ∈ srcSub u isdir l) hu0
        rw [hsrcSub]
        simp [hu0mem]
      have hl1 : (if u.isEmpty then rstrip (srcSub u isdir l)
          else srcSub u isdir (rstrip (srcSub u isdir l))) = rstrip (srcSub u isdir l) := by
        rw [if_neg (bool_neg hue)]
        exact srcSub_fix hune huc hps0
      rw [hl1]
      have hhead2 : (rstrip (srcSub u isdir l)).head? = some w0 := by
        rw [head?_rstrip hrne, hw0']
      have hfid2 : ∀ q ∈ ps, q.1 ≠ chars "url" →
          parseVar q.1 (rstrip (srcSub u isdir l)) = none :=
        fun q hq hqu => parseVar_none_of_head (hnotbrace _ hhead2)
      rw [foldVar_id hfid2, rstrip_idem]

theorem mem_varSub {c : Char} {k v l : Line} (h : c ∈ varSub k v l) : c ∈ l ∨ c ∈ v := by
  unfold varSub at h
  cases hp : parseVar k l with
  | none =>
    rw [hp] at h
    exact Or.inl h
  | some p =>
    rw [hp] at h
    dsimp only at h
    obtain ⟨-, -, hdec, -, -⟩ := parseVar_some hp
    simp only [List.mem_append, List.mem_cons] at h
    rcases h with (hg1 | (hq | hv)) | (hq | hg2)
    · left
      rw [hdec]
      simp [hg1]
    · left
      rw [hdec]
      simp [hq]
    · right
      exact hv
    · left
      rw [hdec]
      simp [hq]
    · left
      rw [hdec]
      simp [hg2]

theorem foldVar_mem {c : Char} : ∀ (ps : List (Line × Line)) (cur : Line),
    c ∈ ps.foldl (fun cur kv => if kv.1 = chars "url" then cur else varSub kv.1 kv.2 cur) cur →
    c ∈ cur ∨ ∃ kv ∈ ps, kv.1 ≠ chars "url" ∧ c ∈ kv.2 := by
  intro ps
  induction ps with
  | nil => intro cur h; exact Or.inl h
  | cons q tail ih =>
    intro cur h
    rw [List.foldl_cons] at h
    by_cases hqu : q.1 = chars "url"
    · rw [if_pos hqu] at h
      rcases ih cur h with h2 | ⟨kv, hkv, hku, hc2⟩
      · exact Or.inl h2
      · exact Or.inr ⟨kv, List.mem_cons_of_mem _ hkv, hku, hc2⟩
    · rw [if_neg hqu] at h
      rcases ih (varSub q.1 q.2 cur) h with h2 | ⟨kv, hkv, hku, hc2⟩
      · rcases mem_varSub h2 with h3 | h3
        · exact Or.inl h3
        · exact Or.inr ⟨q, List.mem_cons_self _ _, hqu, h3⟩
      · exact Or.inr ⟨kv, List.mem_cons_of_mem _ hkv, hku, hc2⟩

theorem srcSub_mem {c : Char} {u l : Line} {isdir : Bool} (h : c ∈ srcSub u isdir l) :
    c ∈ l ∨ c ∈ u ∨ c ∈ chars "path: " ∨ c ∈ chars "url: " := by
  unfold srcSub at h
  cases hp : parseSrc l with
  | none =>
    rw [hp] at h
    exact Or.inl h
  | some wr =>
    obtain ⟨w, rest⟩ := wr
    rw [hp] at h
    dsimp only at h
    obtain ⟨-, -, hdec⟩ := parseSrc_some hp
    simp only [List.mem_append] at h
    rcases h with ((hw | hk) | hu) | hc
    · left
      rcases hdec with h2 | h2 <;> (rw [h2]; simp [hw])
    · split at hk
      · exact Or.inr (Or.inr (Or.inl hk))
      · exact Or.inr (Or.inr (Or.inr hk))
    · exact Or.inr (Or.inl hu)
    · cases hf : findC rest with
      | none =>
        rw [hf] at hc
        simp at hc
      | some m =>
        rw [hf] at hc
        simp only [Option.getD_some] at hc
        obtain ⟨hsuf, -⟩ := findC_some hf
        have h3 : c ∈ rest := hsuf.subset hc
        left
        rcases hdec with h2 | h2 <;> (rw [h2]; simp [h3])

theorem lineStep_no_nl {u : Line} {isdir : Bool} {ps : List (Line × Line)} {l x : Line}
    (hl : '\n' ∉ l) (hu : '\n' ∉ u)
    (hps : ∀ kv ∈ ps, kv.1 ≠ chars "url" → '\n' ∉ kv.2)
    (h : lineStep u isdir ps l = some x) : '\n' ∉ x := by
  unfold lineStep at h
  split at h
  · exact Option.noConfusion h
  · simp only [] at h
    obtain rfl := (Option.some.inj h).symm
    intro hmem
    have hmem2 : '\n' ∈ ps.foldl (fun cur kv => if kv.1 = chars "url" then cur
        else varSub kv.1 kv.2 cur) (if u.isEmpty then l else srcSub u isdir l) :=
      (rstrip_pref _).sublist.subset hmem
    rcases foldVar_mem _ _ hmem2 with h2 | ⟨kv, hkv, hku, hc2⟩
    · have h3 : '\n' ∈ l ∨ '\n' ∈ u ∨ '\n' ∈ chars "path: " ∨ '\n' ∈ chars "url: " := by
        revert h2
        split
        · exact fun h2 => Or.inl h2
        · exact fun h2 => srcSub_mem h2
      rcases h3 with h3 | h3 | h3 | h3
      · exact hl h3
      · exact hu h3
      · exact absurd h3 (by decide)
      · exact absurd h3 (by decide)
    · exact hps kv hkv hku hc2

theorem splitNlAux_no_nl : ∀ (r acc : Line), '\n' ∉ acc →
    ∀ l ∈ splitNlAux acc r, '\n' ∉ l := by
  intro r
  induction r with
  | nil =>
    intro acc hacc l hl
    unfold splitNlAux at hl
    simp only [List.mem_singleton] at hl
    subst hl
    intro hmem
    exact hacc (List.mem_reverse.mp hmem)
  | cons ch t ih =>
    intro acc hacc l hl
    unfold splitNlAux at hl
    by_cases hc : ch = '\n'
    · rw [if_pos hc] at hl
      rcases List.mem_cons.mp hl with rfl | hl2
      · intro hmem
        exact hacc (List.mem_reverse.mp hmem)
      · exact ih [] (List.not_mem_nil _) l hl2
    · rw [if_neg hc] at hl
      refine ih (ch :: acc) ?_ l hl
      intro hmem
      rcases List.mem_cons.mp hmem with he | hmem2
      · exact hc he.symm
      · exact hacc hmem2

theorem splitLines_no_nl (content : Line) : ∀ l ∈ splitLines content, '\n' ∉ l := by
  intro l hl
  unfold splitLines at hl
  split at hl
  · exact absurd hl (List.not_mem_nil l)
  · simp only [] at hl
    split at hl
    · exact splitNlAux_no_nl content [] (List.not_mem_nil _) l (List.mem_of_mem_dropLast hl)
    · exact splitNlAux_no_nl content [] (List.not_mem_nil _) l hl

theorem intercalate_cons2 (a b : Line) (t : List Line) :
    List.intercalate ['\n'] (a :: b :: t)
      = a ++ ['\n'] ++ List.intercalate ['\n'] (b :: t) := by
  unfold List.intercalate
  rw [show List.intersperse ['\n'] (a :: b :: t)
    = a :: ['\n'] :: List.intersperse ['\n'] (b :: t) from rfl]
  rw [List.join_cons, List.join_cons]
  simp [List.append_assoc]

theorem splitNlAux_take : ∀ (a : Line), '\n' ∉ a → ∀ (r acc : Line),
    splitNlAux acc (a ++ '\n' :: r) = (acc.reverse ++ a) :: splitNlAux [] r := by
  intro a
  induction a with
  | nil =>
    intro _ r acc
    show splitNlAux acc ('\n' :: r) = (acc.reverse ++ []) :: splitNlAux [] r
    unfold splitNlAux
    rw [if_pos rfl, List.append_nil]
    cases r with
    | nil => rfl
    | cons c2 r2 => rfl
  | cons c tl ih =>
    intro ha r acc
    have hc : c ≠ '\n' := fun he => ha (he ▸ List.mem_cons_self c tl)
    show splitNlAux acc (c :: (tl ++ '\n' :: r)) = _
    unfold splitNlAux
    rw [if_neg hc, ih (fun hm => ha (List.mem_cons_of_mem _ hm)) r (c :: acc)]
    simp
    cases r with
    | nil => rfl
    | cons c2 r2 => rfl

theorem splitNlAux_render : ∀ (out : List Line), out ≠ [] → (∀ l ∈ out, '\n' ∉ l) →
    splitNlAux [] (List.intercalate ['\n'] out ++ ['\n']) = out ++ [[]] := by
  intro out
  induction out with
  | nil => intro h _; exact absurd rfl h
  | cons a rest ih =>
    intro _ hnl
    cases rest with
    | nil =>
      have h1 : List.intercalate ['\n'] [a] = a := by
        unfold List.intercalate
        rw [show List.intersperse ['\n'] [a] = [a] from rfl]
        simp
      rw [h1, splitNlAux_take a (hnl a (List.mem_cons_self _ _)) [] []]
      rw [show splitNlAux ([] : Line) ([] : Line) = [([] : Line)] from rfl]
      simp
    | cons b t =>
      rw [intercalate_cons2 a b t]
      rw [show ((a ++ ['\n']) ++ List.intercalate ['\n'] (b :: t)) ++ ['\n']
          = a ++ '\n' :: (List.intercalate ['\n'] (b :: t) ++ ['\n']) from by
        simp [List.append_assoc]]
      rw [splitNlAux_take a (hnl a (List.mem_cons_self _ _)) _ []]
      rw [ih (by simp) (fun l hl => hnl l (List.mem_cons_of_mem _ hl))]
      simp

theorem splitLines_renderFile {out : List Line} (hne : out ≠ [])
    (h : ∀ l ∈ out, '\n' ∉ l) : splitLines (renderFile out) = out := by
  unfold renderFile splitLines
  have hrne : (List.intercalate ['\n'] out ++ ['\n']).isEmpty = false := by
    cases hq : List.intercalate ['\n'] out ++ ['\n'] with
    | nil => exact absurd hq (by simp)
    | cons c t => rfl
  rw [if_neg (bool_neg hrne)]
  simp only []
  rw [splitNlAux_render out hne h]
  rw [if_pos (by rw [List.getLast?_concat])]
  exact List.dropLast_concat

theorem filterMap_fix {f : Line → Option Line} : ∀ (ls : List Line),
    (∀ a ∈ ls, f a = some a) → ls.filterMap f = ls := by
  intro ls
  induction ls with
  | nil => intro _; rfl
  | cons a t ih =>
    intro h
    have h1 : (a :: t).filterMap f = a :: t.filterMap f := by
      rw [List.filterMap_cons, h a (List.mem_cons_self _ _)]
    rw [h1, ih fun b hb => h b (List.mem_cons_of_mem _ hb)]

/-- Claim C8 (counterexample): a substitution value containing `sha256`
is written into the output, so the rewritten file is not always free of
lines containing `sha256`: with input line `{% set version = '1.0' %}`
and value `sha256bad`, the written line contains `sha256`. -/
theorem sha_reintroduced_cex :
    updateRecipeLines (chars "/tmp/x") false
        [(chars "url", chars "/tmp/x"), (chars "version", chars "sha256bad")]
        [chars "\x7b% set version = \x271.0\x27 %\x7d"] =
      [chars "\x7b% set version = \x27sha256bad\x27 %\x7d"] ∧
    isSub (chars "sha256") (chars "\x7b% set version = \x27sha256bad\x27 %\x7d") = true :=
  ⟨by decide, by decide⟩

/-- Claim C8 (amended): provided the url (backslash-free) and every
substitution value are free of the substring `sha256`, the rewritten
file contains no line containing `sha256` — in particular every input
line containing it is dropped, whether there are 0, 1 or many. -/
theorem update_recipe_sha_free (url : Line) (isdir : Bool) (ps : List (Line × Line))
    (lines : List Line) (hub : '\\' ∉ url)
    (hu : isSub (chars "sha256") url = false)
    (hps : ∀ kv ∈ ps, isSub (chars "sha256") kv.2 = false) :
    ∀ l' ∈ updateRecipeLines url isdir ps lines, isSub (chars "sha256") l' = false := by
  intro l' hmem
  obtain ⟨l, hl, hstep⟩ := List.mem_filterMap.mp hmem
  have hu' : ¬ chars "sha256" <:+: normUrl url := by
    rw [normUrl_eq_self hub]
    intro hin
    exact absurd ((isSub_iff _ _).mpr hin) (by simp [hu])
  have hps' : ∀ kv ∈ ps, ¬ chars "sha256" <:+: kv.2 := fun kv hm hin =>
    absurd ((isSub_iff _ _).mpr hin) (by simp [hps kv hm])
  have hfree := lineStep_sha hu' hps' hstep
  exact Bool.eq_false_iff.mpr fun hb => hfree ((isSub_iff _ _).mp hb)

/-- Claim C8 (witness for the amended theorem). -/
theorem update_recipe_sha_free_witness :
    isSub (chars "sha256") (chars "\x7b% set version = \x279.9\x27 %\x7d") = false :=
  update_recipe_sha_free (chars "/tmp/x") false
    [(chars "url", chars "/tmp/x"), (chars "version", chars "9.9")]
    [chars "  sha256: abc", chars "\x7b% set version = \x271.0\x27 %\x7d",
     chars "  sha256: def"]
    (by decide) (by decide) (by decide)
    (chars "\x7b% set version = \x279.9\x27 %\x7d") (by decide)

/-!
### Claim theorems: the two metadata utilities
-/

/-- Claim C2 (counterexample): with two `Version:` lines the extractor
prints the value of the LAST matching line, not the first one, so the
claim "extracts the value of the FIRST line matching `Version:`" fails
on the file `["Version: 1.0", "Version: 2.0"]`. -/
theorem extractor_first_line_cex :
    firstMatchSpec matchVersion [chars "Version: 1.0", chars "Version: 2.0"] =
      some (chars "1.0") ∧
    get_version_main [chars "Version: 1.0", chars "Version: 2.0"] false =
      ⟨[chars "2.0"], [], 0⟩ ∧
    chars "2.0" ≠ chars "1.0" :=
  ⟨by decide, by decide, by decide⟩

/-- Claim C2 (amended): both utilities keep the value of the LAST line
matching `Version:` (and, for the formatter, the last `TKVersion:`
match, adjusted through the `none ↦ REST-only` rule); the extractor
then prints exactly that value (`==`-prefixed under the expression
flag) and exits 0. -/
theorem extractor_last_line (lines : List Line) (v : Line) (e : Bool)
    (hv : lastMatchSpec matchVersion lines = some v) :
    get_version_main lines e = ⟨[if e then chars "==" ++ v else v], [], 0⟩ ∧
    (bnScan lines).1 = some v ∧
    (bnScan lines).2 = (lastMatchSpec matchTk lines).map tkAdjust := by
  have hne : v.isEmpty = false := lastMatchSpec_nonempty hv
  have h1 : lastMatch matchVersion lines = some v := by rw [lastMatch_eq]; exact hv
  refine ⟨?_, ?_, ?_⟩
  · unfold get_version_main
    rw [h1]
    simp [hne]
  · rw [bnScan_eq, h1]
  · rw [bnScan_eq]
    show lastMatch (fun l => (matchTk l).map tkAdjust) lines = _
    rw [lastMatch_eq]
    unfold lastMatchSpec
    exact findSomeMap tkAdjust matchTk lines.reverse

/-- Claim C2 (witness for the amended theorem). -/
theorem extractor_last_line_witness :
    get_version_main [chars "Version: 3.1.4"] true = ⟨[chars "==3.1.4"], [], 0⟩ := by
  have h := (extractor_last_line [chars "Version: 3.1.4"] (chars "3.1.4") true (by decide)).1
  simpa using h

/-- Claim C5: on a metadata file with no line matching `Version:`, both
the extractor and the formatter print nothing on stdout, print the
fixed message on stderr, and exit with status 1. -/
theorem missing_version_exits_one (lines : List Line) (e : Bool) (p : Line) (f : Bool)
    (h : ∀ l ∈ lines, matchVersion l = none) :
    get_version_main lines e = ⟨[], [errMsg], 1⟩ ∧
    get_basename_main lines p f = ⟨[], [errMsg], 1⟩ := by
  have h1 : lastMatch matchVersion lines = none := by
    rw [lastMatch_eq]
    exact findSomeNone _ _ fun x hx => h x (List.mem_reverse.mp hx)
  constructor
  · unfold get_version_main
    rw [h1]
  · unfold get_basename_main
    rw [bnScan_eq, h1]

/-- Claim C5 (witness). -/
theorem missing_version_exits_one_witness :
    get_version_main [chars "Package: swat"] false = ⟨[], [errMsg], 1⟩ ∧
    get_basename_main [chars "Package: swat"] (chars "linux-64") true =
      ⟨[], [errMsg], 1⟩ :=
  missing_version_exits_one [chars "Package: swat"] false (chars "linux-64") true
    (by decide)

/-- Claim C6: with a version present, the short form is exactly
`R-swat-<version>`; the full form is exactly
`R-swat-<version>+<secondary>-<platform>`, where the secondary
component is the literal `REST-only` whenever the metadata's last
`TKVersion:` value is `none`. -/
theorem basename_forms (lines : List Line) (p v : Line)
    (hv : lastMatchSpec matchVersion lines = some v) :
    get_basename_main lines p false = ⟨[chars "R-swat-" ++ v], [], 0⟩ ∧
    get_basename_main lines p true =
      ⟨[chars "R-swat-" ++ v ++ chars "+" ++
        tkRepr ((lastMatchSpec matchTk lines).map tkAdjust) ++ chars "-" ++ p], [], 0⟩ ∧
    (lastMatchSpec matchTk lines = some (chars "none") →
      tkRepr ((lastMatchSpec matchTk lines).map tkAdjust) = chars "REST-only") := by
  have hne : v.isEmpty = false := lastMatchSpec_nonempty hv
  have h1 : lastMatch matchVersion lines = some v := by rw [lastMatch_eq]; exact hv
  have h2 : (bnScan lines).2 = (lastMatchSpec matchTk lines).map tkAdjust := by
    rw [bnScan_eq]
    show lastMatch (fun l => (matchTk l).map tkAdjust) lines = _
    rw [lastMatch_eq]
    unfold lastMatchSpec
    exact findSomeMap tkAdjust matchTk lines.reverse
  have hfst : (bnScan lines).1 = some v := by rw [bnScan_eq, h1]
  refine ⟨?_, ?_, ?_⟩
  · simp [get_basename_main, hfst, hne]
  · simp [get_basename_main, hfst, hne, h2]
  · intro ht
    rw [ht]
    simp [tkRepr, tkAdjust]

/-- Claim C6 (witness). -/
theorem basename_forms_witness :
    get_basename_main [chars "Version: 9.8", chars "TKVersion: none"] (chars "osx-64") false =
      ⟨[chars "R-swat-9.8"], [], 0⟩ ∧
    get_basename_main [chars "Version: 9.8", chars "TKVersion: none"] (chars "osx-64") true =
      ⟨[chars "R-swat-9.8+REST-only-osx-64"], [], 0⟩ := by
  have h := basename_forms [chars "Version: 9.8", chars "TKVersion: none"]
    (chars "osx-64") (chars "9.8") (by decide)
  refine ⟨by simpa using h.1, ?_⟩
  have h2 := h.2.1
  simpa using h2

/-- Claim C10: with a `Version:` line but no line matching `TKVersion:`,
the full form renders the never-assigned secondary version as the
literal string `None` (Python's `format` of `None`), printing
`R-swat-<version>+None-<platform>` and exiting 0. -/
theorem basename_missing_tk (lines : List Line) (p v : Line)
    (hv : lastMatchSpec matchVersion lines = some v)
    (ht : ∀ l ∈ lines, matchTk l = none) :
    get_basename_main lines p true =
      ⟨[chars "R-swat-" ++ v ++ chars "+None-" ++ p], [], 0⟩ := by
  have hne : v.isEmpty = false := lastMatchSpec_nonempty hv
  have h1 : lastMatch matchVersion lines = some v := by rw [lastMatch_eq]; exact hv
  have h2 : lastMatch (fun l => (matchTk l).map tkAdjust) lines = none := by
    rw [lastMatch_eq]
    exact findSomeNone _ _ fun x hx => by rw [ht x (List.mem_reverse.mp hx)]; rfl
  have e : chars "+None-" = chars "+" ++ (chars "None" ++ chars "-") := by decide
  simp [get_basename_main, bnScan_eq, h1, h2, hne, tkRepr, e, List.append_assoc]

/-- Claim C10 (witness). -/
theorem basename_missing_tk_witness :
    get_basename_main [chars "Version: 2.5"] (chars "win-64") true =
      ⟨[chars "R-swat-2.5+None-win-64"], [], 0⟩ := by
  have h := basename_missing_tk [chars "Version: 2.5"] (chars "win-64") (chars "2.5")
    (by decide) (by decide)
  simpa using h

/-- Claim C7: platform detection is a pure function of the pair
(OS name, machine string) into exactly the five fixed tags; the
substring / prefix conditions select them in the if-chain order of
the source, everything else mapping to `unknown`, and all five
outputs are attained. -/
theorem platform_detection (s m : Line) :
    (get_platform s m = chars "osx-64" ∨ get_platform s m = chars "win-64" ∨
     get_platform s m = chars "linux-64" ∨ get_platform s m = chars "linux-ppc64le" ∨
     get_platform s m = chars "unknown") ∧
    (isSub (chars "darwin") (lowerL s) = true → get_platform s m = chars "osx-64") ∧
    (isSub (chars "darwin") (lowerL s) = false →
      (chars "win").isPrefixOf (lowerL s) = true → get_platform s m = chars "win-64") ∧
    (isSub (chars "darwin") (lowerL s) = false →
      (chars "win").isPrefixOf (lowerL s) = false →
      isSub (chars "linux") (lowerL s) = true →
      isSub (chars "x86") (lowerL m) = true → get_platform s m = chars "linux-64") ∧
    (isSub (chars "darwin") (lowerL s) = false →
      (chars "win").isPrefixOf (lowerL s) = false →
      isSub (chars "linux") (lowerL s) = true →
      isSub (chars "x86") (lowerL m) = false →
      isSub (chars "ppc") (lowerL m) = true → get_platform s m = chars "linux-ppc64le") ∧
    (isSub (chars "darwin") (lowerL s) = false →
      (chars "win").isPrefixOf (lowerL s) = false →
      isSub (chars "linux") (lowerL s) = false → get_platform s m = chars "unknown") ∧
    (isSub (chars "darwin") (lowerL s) = false →
      (chars "win").isPrefixOf (lowerL s) = false →
      isSub (chars "linux") (lowerL s) = true →
      isSub (chars "x86") (lowerL m) = false →
      isSub (chars "ppc") (lowerL m) = false → get_platform s m = chars "unknown") ∧
    (get_platform (chars "Darwin") (chars "arm64") = chars "osx-64" ∧
     get_platform (chars "Windows") (chars "AMD64") = chars "win-64" ∧
     get_platform (chars "Linux") (chars "x86_64") = chars "linux-64" ∧
     get_platform (chars "Linux") (chars "ppc64le") = chars "linux-ppc64le" ∧
     get_platform (chars "SunOS") (chars "sparc") = chars "unknown") := by
  refine ⟨?_, ?_, ?_, ?_, ?_, ?_, ?_, by decide, by decide, by decide, by decide, by decide⟩
  · unfold get_platform
    cases hd : isSub (chars "darwin") (lowerL s) <;>
      cases hw : (chars "win").isPrefixOf (lowerL s) <;>
        cases hl : isSub (chars "linux") (lowerL s) <;>
          cases hx : isSub (chars "x86") (lowerL m) <;>
            cases hp : isSub (chars "ppc") (lowerL m) <;>
              simp [hd, hw, hl, hx, hp]
  all_goals
    intros
    unfold get_platform
    simp_all

/-- Claim C7 (witness). -/
theorem platform_detection_witness :
    get_platform (chars "Linux") (chars "ppc64le") = chars "linux-ppc64le" :=
  (platform_detection (chars "Linux") (chars "ppc64le")).2.2.2.2.1
    (by decide) (by decide) (by decide) (by decide) (by decide)

/-!
### Claim theorems: version-matrix discovery
-/

/-- Claim C1 (evaluation at the failing input): with the first package
declaring base versions 3.1, 3.2, 3.3 and the subsequent packages
declaring 3.2 and 3.3, 3.1 and 3.2, and 3.2 only, the code returns the
whole seeded set `[3.1, 3.2, 3.3]` — not the intersection `[3.2]` the
specification describes: the removal branch only runs for versions
absent from the set, where `set.remove` cannot succeed, so later
packages can never narrow the seeded set. -/
theorem gsv_mock_matrix_eval :
    get_supported_versions
      [[⟨[chars "r-base 3.1"]⟩, ⟨[chars "r-base 3.2"]⟩, ⟨[chars "r-base 3.3"]⟩],
       [⟨[chars "r-base 3.2"]⟩, ⟨[chars "r-base 3.3"]⟩],
       [⟨[chars "r-base 3.1"]⟩, ⟨[chars "r-base 3.2"]⟩],
       [⟨[chars "r-base 3.2"]⟩]] =
      .ok ([chars "3.1", chars "3.2", chars "3.3"], []) ∧
    ([chars "3.1", chars "3.2", chars "3.3"] : List Line) ≠ [chars "3.2"] :=
  ⟨by rfl, by decide⟩

/-- Claim C9: a dependency package after the first reporting a base
version absent from the seeded set (`3.5.0` against seed `{3.4.1}`)
makes `get_supported_versions` raise `KeyError` (`set.remove` of a
missing element) instead of returning a version set. -/
theorem gsv_keyerror_eval :
    get_supported_versions
      [[⟨[chars "r-base 3.4.1"]⟩], [⟨[chars "r-base 3.5.0"]⟩], [], []] =
      .error .keyError := by rfl

theorem gsv_single (item : SearchItem) :
    get_supported_versions [[item], [], [], []] =
      match processItem 0 ⟨[], []⟩ item with
      | .ok vs => .ok (sortLines vs.r, sortLines vs.mro)
      | .error e => .error e := by
  have he : ([[item], [], [], []] : List (List SearchItem)).enum =
      [(0, [item]), (1, []), (2, []), (3, [])] := rfl
  unfold get_supported_versions processPkg
  rw [he]
  simp only [List.foldlM_cons, List.foldlM_nil]
  cases h : processItem 0 (⟨[], []⟩ : RVers) item with
  | ok vs => rfl
  | error e => rfl

theorem processItem_mro_fb (t : Line) (h : findFirstVer (chars "mro-base" ++ t) = none) :
    processItem 0 ⟨[], []⟩ ⟨[chars "mro-base" ++ t]⟩ =
      .ok ⟨[], [chars "3.4.3"]⟩ := by
  have h1 : entryRVer ⟨[chars "mro-base" ++ t]⟩ = some (chars "mro-base" ++ t) := by
    have hp2 : (chars "mro-base").isPrefixOf (chars "mro-base" ++ t) = true := by
      rw [List.isPrefixOf_iff_prefix]
      exact ⟨t, rfl⟩
    simp [entryRVer, List.filter_cons, hp2]
  have hb : baseOf (chars "mro-base" ++ t) = chars "mro" := rfl
  have h2 : entryVersion (chars "mro-base" ++ t) = .ok (chars "3.4.3") := by
    unfold entryVersion
    rw [h, hb]
    rfl
  unfold processItem
  rw [h1]
  simp only []
  rw [h2, hb]
  rfl

theorem processItem_r_fatal (t : Line) (h : findFirstVer (chars "r-base" ++ t) = none) :
    processItem 0 ⟨[], []⟩ ⟨[chars "r-base" ++ t]⟩ = .error .indexError := by
  have h1 : entryRVer ⟨[chars "r-base" ++ t]⟩ = some (chars "r-base" ++ t) := by
    have hp2 : (chars "r-base").isPrefixOf (chars "r-base" ++ t) = true := by
      rw [List.isPrefixOf_iff_prefix]
      exact ⟨t, rfl⟩
    simp [entryRVer, List.filter_cons, hp2]
  have hb : baseOf (chars "r-base" ++ t) = chars "r" := rfl
  have h2 : entryVersion (chars "r-base" ++ t) = .error .indexError := by
    unfold entryVersion
    rw [h, hb]
    rfl
  unfold processItem
  rw [h1]
  simp only []
  rw [h2]

/-- Claim C3: during version-matrix discovery, a dependency entry whose
string contains no `digit.digit(.digit)` substring yields the fixed
fallback version `3.4.3` when it names the `mro` flavor's base package,
while the same condition for the `r` flavor propagates the fatal
`IndexError` of `re.findall(...)[0]` instead of substituting a
fallback. -/
theorem mro_fallback_vs_r_fatal (dep : Line) (h : findFirstVer dep = none) :
    ((chars "mro-base").isPrefixOf dep = true →
      get_supported_versions [[⟨[dep]⟩], [], [], []] = .ok ([], [chars "3.4.3"])) ∧
    ((chars "r-base").isPrefixOf dep = true →
      get_supported_versions [[⟨[dep]⟩], [], [], []] = .error .indexError) := by
  constructor
  · intro hp
    obtain ⟨t, rfl⟩ := List.isPrefixOf_iff_prefix.mp hp
    rw [gsv_single, processItem_mro_fb t h]
    rfl
  · intro hp
    obtain ⟨t, rfl⟩ := List.isPrefixOf_iff_prefix.mp hp
    rw [gsv_single, processItem_r_fatal t h]

/-- Claim C3 (witness). -/
theorem mro_fallback_vs_r_fatal_witness :
    get_supported_versions [[⟨[chars "mro-base"]⟩], [], [], []] =
      .ok ([], [chars "3.4.3"]) ∧
    get_supported_versions [[⟨[chars "r-base"]⟩], [], [], []] =
      .error .indexError := by
  constructor
  · have h := (mro_fallback_vs_r_fatal (chars "mro-base") (by rfl)).1 (by rfl)
    simpa using h
  · have h := (mro_fallback_vs_r_fatal (chars "r-base") (by rfl)).2 (by rfl)
    simpa using h

/-- Claim C4 (counterexample): `update_recipe` is not idempotent in
general.  A substitution value containing `sha256` is written into the
file by the first run and the line carrying it is then deleted by the
second run, so running the rewrite twice with identical parameters
changes the file again. -/
theorem update_recipe_not_idem_cex :
    update_recipe [] false [(chars "url", []), (chars "version", chars "sha256bad")]
        (update_recipe [] false [(chars "url", []), (chars "version", chars "sha256bad")]
          (chars "\x7b% set version = \x271.0\x27 %\x7d\n"))
      ≠ update_recipe [] false [(chars "url", []), (chars "version", chars "sha256bad")]
          (chars "\x7b% set version = \x271.0\x27 %\x7d\n") := by decide

/-- Claim C4 (amended): `update_recipe` is idempotent — a second run
with identical parameters writes back a byte-identical file — provided
the parameters are sane: the url is either empty or backslash-free,
without whitespace or `#`, and `sha256`-free; every substituted value
is nonempty, free of single quotes, newlines and `sha256`, under an
identifier-shaped key; and the keyword names are distinct (as they are
for Python keyword arguments). -/
theorem update_recipe_idem (url : Line) (isdir : Bool) (ps : List (Line × Line))
    (content : Line)
    (hub : '\\' ∉ url)
    (hurl : url = [] ∨ (url ≠ [] ∧ (∀ c ∈ url, isSpc c = false ∧ c ≠ '#') ∧
      isSub (chars "sha256") url = false))
    (hnd : (ps.map Prod.fst).Nodup)
    (hkeys : ∀ q ∈ ps, q.1 ≠ chars "url" → keyOK q.1 ∧ q.2 ≠ [] ∧ '\x27' ∉ q.2 ∧
      '\n' ∉ q.2 ∧ isSub (chars "sha256") q.2 = false) :
    update_recipe url isdir ps (update_recipe url isdir ps content)
      = update_recipe url isdir ps content := by
  have hnu : normUrl url = url := normUrl_eq_self hub
  have hu2 : normUrl url = [] ∨ (normUrl url ≠ [] ∧
      (∀ c ∈ normUrl url, isSpc c = false ∧ c ≠ '#') ∧
      ¬ chars "sha256" <:+: normUrl url) := by
    rw [hnu]
    rcases hurl with h9 | ⟨h9, h10, h11⟩
    · exact Or.inl h9
    · exact Or.inr ⟨h9, h10, fun hin => absurd ((isSub_iff _ _).mpr hin) (bool_neg h11)⟩
  have hkeys2 : ∀ q ∈ ps, q.1 ≠ chars "url" → keyOK q.1 ∧ q.2 ≠ [] ∧ '\x27' ∉ q.2 ∧
      ¬ chars "sha256" <:+: q.2 :=
    fun q hq hqu => ⟨(hkeys q hq hqu).1, (hkeys q hq hqu).2.1, (hkeys q hq hqu).2.2.1,
      fun hin => absurd ((isSub_iff _ _).mpr hin) (bool_neg (hkeys q hq hqu).2.2.2.2)⟩
  unfold update_recipe
  cases hout : updateRecipeLines url isdir ps (splitLines content) with
  | nil =>
    have hstep : lineStep (normUrl url) isdir ps [] = some [] := by
      unfold lineStep
      rw [if_neg (by decide)]
      simp only []
      have hl1 : (if (normUrl url).isEmpty then ([] : Line)
          else srcSub (normUrl url) isdir []) = [] := by
        cases hq : (normUrl url).isEmpty with
        | true => rw [if_pos rfl]
        | false =>
          rw [if_neg (by simp)]
          rfl
      rw [hl1, foldVar_id (fun q hq hqu => parseVar_none_of_head (by simp))]
      rfl
    rw [show renderFile ([] : List Line) = ['\n'] from rfl]
    rw [show splitLines (['\n'] : Line) = [([] : Line)] from rfl]
    rw [show updateRecipeLines url isdir ps [([] : Line)] = [([] : Line)] from by
      unfold updateRecipeLines
      rw [List.filterMap_cons, hstep]
      rfl]
    rfl
  | cons o os =>
    have hnl_lines : ∀ l ∈ splitLines content, '\n' ∉ l := splitLines_no_nl content
    have hnlu : '\n' ∉ normUrl url := by
      rw [hnu]
      rcases hurl with h9 | ⟨-, h10, -⟩
      · rw [h9]
        exact List.not_mem_nil _
      · intro hm
        exact absurd (h10 '\n' hm).1 (by decide)
    have hfix : ∀ x ∈ (o :: os), lineStep (normUrl url) isdir ps x = some x := by
      intro x hx
      have hx2 : x ∈ updateRecipeLines url isdir ps (splitLines content) := by
        rw [hout]
        exact hx
      obtain ⟨l, hl, hstep⟩ := List.mem_filterMap.mp hx2
      exact lineStep_fix hu2 hnd hkeys2 hstep
    have hnlx : ∀ x ∈ (o :: os), '\n' ∉ x := by
      intro x hx
      have hx2 : x ∈ updateRecipeLines url isdir ps (splitLines content) := by
        rw [hout]
        exact hx
      obtain ⟨l, hl, hstep⟩ := List.mem_filterMap.mp hx2
      exact lineStep_no_nl (hnl_lines l hl) hnlu
        (fun kv hkv hku => (hkeys kv hkv hku).2.2.2.1) hstep
    rw [splitLines_renderFile (by simp) hnlx]
    unfold updateRecipeLines
    rw [filterMap_fix _ hfix]

/-- Claim C4 (witness for the amended theorem): a recipe with a `url:`
source line, a `set version` assignment and a `sha256:` line reaches a
fixpoint after one rewrite. -/
theorem update_recipe_idem_witness :
    update_recipe (chars "/tmp/pkg") false
        [(chars "url", chars "/tmp/pkg"), (chars "version", chars "1.2.3")]
        (update_recipe (chars "/tmp/pkg") false
          [(chars "url", chars "/tmp/pkg"), (chars "version", chars "1.2.3")]
          (chars "  url: http://x\n\x7b% set version = \x271.0\x27 %\x7d\n  sha256: abc\n"))
      = update_recipe (chars "/tmp/pkg") false
          [(chars "url", chars "/tmp/pkg"), (chars "version", chars "1.2.3")]
          (chars "  url: http://x\n\x7b% set version = \x271.0\x27 %\x7d\n  sha256: abc\n") :=
  update_recipe_idem (chars "/tmp/pkg") false
    [(chars "url", chars "/tmp/pkg"), (chars "version", chars "1.2.3")]
    (chars "  url: http://x\n\x7b% set version = \x271.0\x27 %\x7d\n  sha256: abc\n")
    (by decide) (Or.inr ⟨by decide, by decide, by decide⟩) (by decide) (by decide)
